import Mathlib

/-!
Shallow embedding of `server/services/chordpro.py` (class `ChordProService`).
Documents and lines are modelled as `List Char`; the Python string operations
used by the service (`str.split('\n')`, `str.rstrip()`, `str.strip()`,
`re.findall`/`re.finditer` on the two regexes, `int(...)`, f-strings) are
translated into executable Lean functions below.
-/

namespace ChordPro

/-- Whitespace characters stripped by Python `str.strip()` / `str.rstrip()`
(ASCII range; the service's inputs and the claims only involve ASCII). -/
def pyIsSpace (c : Char) : Bool :=
  c = ' ' || c = '\t' || c = '\n' || c = '\r' || c = '\x0b' || c = '\x0c'

/-- Python `s.split(sep)` for a one-character separator: always returns
one more part than there are separator occurrences (`"".split` gives `[""]`). -/
def splitOnChar (sep : Char) : List Char → List (List Char)
  | [] => [[]]
  | c :: cs =>
    if c = sep then [] :: splitOnChar sep cs
    else
      match splitOnChar sep cs with
      | h :: t => (c :: h) :: t
      | [] => [[c]]

/-- Python `'\n'.join(parts)` (on `List Char` lines). -/
def joinLines (parts : List (List Char)) : List Char :=
  List.intercalate ['\n'] parts

/-- Python `str.rstrip()`. -/
def pyRstrip (l : List Char) : List Char :=
  (l.reverse.dropWhile pyIsSpace).reverse

/-- Python `str.strip()`. -/
def pyStrip (l : List Char) : List Char :=
  pyRstrip (l.dropWhile pyIsSpace)

/-- Decimal digits of a natural number (fuel-based structural recursion; the
fuel `n + 1` always suffices since `n / 10 < n` for `n ≥ 10`). -/
def natReprAux : Nat → Nat → List Char
  | 0, _ => []
  | fuel + 1, n =>
    if n < 10 then [Char.ofNat (48 + n)]
    else natReprAux fuel (n / 10) ++ [Char.ofNat (48 + n % 10)]

/-- Decimal digits of a natural number, as produced by Python `str(n)`. -/
def natRepr (n : Nat) : List Char := natReprAux (n + 1) n

/-- Python `str(i)` for an `int`. -/
def intRepr (i : Int) : List Char :=
  if i < 0 then '-' :: natRepr i.natAbs else natRepr i.natAbs

/-- Digit run accepted by Python `int(...)` after an optional sign: decimal
digits with single underscores allowed between digits. -/
def pyDigitsAux (acc : Nat) : List Char → Option Nat
  | [] => some acc
  | '_' :: c :: cs =>
    if c.isDigit then pyDigitsAux (acc * 10 + (c.toNat - 48)) cs else none
  | c :: cs =>
    if c.isDigit then pyDigitsAux (acc * 10 + (c.toNat - 48)) cs else none

/-- Unsigned digit-run parse (at least one digit, underscores between digits). -/
def pyDigits : List Char → Option Nat
  | [] => none
  | c :: cs => if c.isDigit then pyDigitsAux (c.toNat - 48) cs else none

/-- Python `int(s)`: strip whitespace, optional sign, decimal digits.
Returns `none` where Python raises `ValueError`. -/
def pyParseInt (l : List Char) : Option Int :=
  match pyStrip l with
  | '+' :: rest => (pyDigits rest).map Int.ofNat
  | '-' :: rest => (pyDigits rest).map (fun n => -(n : Int))
  | s => (pyDigits s).map Int.ofNat

/-! ### The directive regular expression

`DIRECTIVE_REGEX = re.compile(r'\{([^:}]+)(?::([^}]*))?\}')`.
`findall` scans left to right; at a `{` it takes a maximal nonempty run of
characters other than `:` and `}` as the name, then either a closing `}`
(no value; `findall` reports the value group as the empty string) or a `:`
followed by a maximal run of non-`}` characters and a closing `}`.
No backtracking can rescue a failed attempt, so on failure the scan resumes
one character further on. -/

/-- Characters allowed in a directive name (`[^:}]`). -/
def dirNameChar (c : Char) : Bool := c != ':' && c != '}'

/-- Attempt to match the body of a directive just after a `{`; on success
returns the name, the value (empty when the `:value` part is absent) and the
remainder of the input after the closing `}`. -/
def tryDir (cs : List Char) : Option (List Char × List Char × List Char) :=
  let name := cs.takeWhile dirNameChar
  if name.isEmpty then none
  else
    match cs.dropWhile dirNameChar with
    | '}' :: r => some (name, [], r)
    | ':' :: r2 =>
      (match r2.dropWhile (fun c => c != '}') with
       | '}' :: r => some (name, r2.takeWhile (fun c => c != '}'), r)
       | _ => none)
    | _ => none

theorem length_dropWhile_le (p : Char → Bool) (l : List Char) :
    (l.dropWhile p).length ≤ l.length := by
  induction l with
  | nil => simp [List.dropWhile]
  | cons c cs ih =>
    by_cases h : p c
    · simp [List.dropWhile_cons, h]; omega
    · simp [List.dropWhile_cons, h]

theorem tryDir_length {cs n v r : List Char} (h : tryDir cs = some (n, v, r)) :
    r.length < cs.length := by
  unfold tryDir at h
  by_cases hn : (cs.takeWhile dirNameChar).isEmpty
  · simp [hn] at h
  · simp only [hn, if_false] at h
    have hd := length_dropWhile_le dirNameChar cs
    rcases hw : cs.dropWhile dirNameChar with _ | ⟨c, rest⟩
    · rw [hw] at h; simp at h
    · rw [hw] at h
      rw [hw] at hd
      by_cases hc : c = '}'
      · subst hc; simp at h
        obtain ⟨_, _, hr⟩ := h
        subst hr; simp at hd; omega
      · by_cases hc2 : c = ':'
        · subst hc2
          simp only [hc, if_false] at h
          have hd2 := length_dropWhile_le (fun c => c != '}') rest
          rcases hw2 : rest.dropWhile (fun c => c != '}') with _ | ⟨c2, rest2⟩
          · rw [hw2] at h; simp at h
          · rw [hw2] at h
            rw [hw2] at hd2
            by_cases hc3 : c2 = '}'
            · subst hc3; simp at h
              obtain ⟨_, _, hr⟩ := h
              subst hr; simp at hd hd2; omega
            · simp [hc3] at h
        · simp [hc, hc2] at h

/-- Scanner loop for `DIRECTIVE_REGEX.findall`; structurally recursive on a
fuel argument so that it evaluates in the kernel.  A successful match resumes
after the closing `}` (which is strictly shorter than the remaining input, by
`tryDir_length`), a failed attempt resumes one character on, so fuel equal to
the input length always suffices. -/
def scanAux : Nat → List Char → List (List Char × List Char)
  | 0, _ => []
  | _, [] => []
  | fuel + 1, c :: cs =>
    if c = '{' then
      match tryDir cs with
      | some (name, v, rest) => (name, v) :: scanAux fuel rest
      | none => scanAux fuel cs
    else scanAux fuel cs

/-- Python `DIRECTIVE_REGEX.findall(s)`: every directive occurrence, in order, as
(name, value) pairs, with the value group reported as `[]` when absent. -/
def scanDirectives (l : List Char) : List (List Char × List Char) :=
  scanAux l.length l

theorem scanAux_congr : ∀ (fuel1 fuel2 : Nat) (l : List Char),
    l.length ≤ fuel1 → l.length ≤ fuel2 → scanAux fuel1 l = scanAux fuel2 l := by
  intro fuel1
  induction fuel1 with
  | zero =>
    intro fuel2 l h1 _
    have : l = [] := by cases l <;> simp_all
    subst this
    cases fuel2 <;> rfl
  | succ f1 ih =>
    intro fuel2 l h1 h2
    cases l with
    | nil => cases fuel2 <;> rfl
    | cons c cs =>
      cases fuel2 with
      | zero => simp at h2
      | succ f2 =>
        simp only [scanAux]
        by_cases hc : c = '{'
        · simp only [hc, if_true]
          rcases ht : tryDir cs with _ | ⟨name, v, rest⟩
          · exact ih f2 cs (by simp at h1; omega) (by simp at h2; omega)
          · have hlen := tryDir_length ht
            simp only []
            rw [ih f2 rest (by simp at h1; omega) (by simp at h2; omega)]
        · simp only [hc, if_false]
          exact ih f2 cs (by simp at h1; omega) (by simp at h2; omega)

theorem scanDirectives_nil : scanDirectives [] = [] := rfl

/-- Unfolding rule for the directive scanner. -/
theorem scanDirectives_cons (c : Char) (cs : List Char) :
    scanDirectives (c :: cs) =
      if c = '{' then
        match tryDir cs with
        | some (name, v, rest) => (name, v) :: scanDirectives rest
        | none => scanDirectives cs
      else scanDirectives cs := by
  show scanAux (cs.length + 1) (c :: cs) = _
  simp only [scanAux]
  by_cases hc : c = '{'
  · simp only [hc, if_true]
    rcases ht : tryDir cs with _ | ⟨name, v, rest⟩
    · rfl
    · have hlen := tryDir_length ht
      simp only []
      rw [scanAux_congr cs.length rest.length rest (by omega) (by omega)]
      rfl
  · simp only [hc, if_false]
    rfl

example : scanDirectives "{title:Hello}".data = [("title".data, "Hello".data)] := by decide
example : scanDirectives "{soc}".data = [("soc".data, [])] := by decide
example : scanDirectives "a{t:x}b{capo:3}".data =
    [("t".data, "x".data), ("capo".data, "3".data)] := by decide
example : scanDirectives "\x7bbad".data = [] := by decide
example : pyParseInt " 12 ".data = some 12 := by decide
example : pyParseInt "-7".data = some (-7) := by decide
example : pyParseInt "x".data = none := by decide
example : natRepr 132 = ['1', '3', '2'] := by decide

/-! ### `ChordProService.validate`

Line-by-line scan with a stack of open block kinds.  A failed block-close or
a bracket mismatch aborts the scan; a non-empty stack at the end produces the
"Unclosed block(s)" message. -/

/-- Result of the scanning part of `validate`: either the surviving block
stack or the error message of the early `return False, ...`. -/
inductive VRes where
  | ok : List (List Char) → VRes
  | err : List Char → VRes
deriving DecidableEq

/-- The per-line failure message for an unexpected block close. -/
def unexpectedMsg (n : Nat) (kind : List Char) : List Char :=
  "Line ".data ++ natRepr n ++ (": Unexpected end_of_".data ++ kind)

/-- The per-line failure message for unmatched chord brackets. -/
def bracketMsg (n : Nat) : List Char :=
  "Line ".data ++ natRepr n ++ ": Unmatched brackets in chords".data

/-- One directive of the block-tracking `if`/`elif` chain of `validate`.
Python's `if not open_blocks or open_blocks[-1] != kind` is rendered as
`stack.getLast? ≠ some kind` (equivalent: `getLast?` is `none` on `[]`).
`append`/`pop()` work at the end of the Python list, hence `++ [kind]` and
`dropLast`. -/
def blockStep (lineNum : Nat) (stack : List (List Char)) (d : List Char) : VRes :=
  if d = "soc".data ∨ d = "start_of_chorus".data ∨ d = "chorus".data then
    .ok (stack ++ ["chorus".data])
  else if d = "eoc".data ∨ d = "end_of_chorus".data then
    if stack.getLast? ≠ some "chorus".data then .err (unexpectedMsg lineNum "chorus".data)
    else .ok stack.dropLast
  else if d = "sov".data ∨ d = "start_of_verse".data ∨ d = "verse".data then
    .ok (stack ++ ["verse".data])
  else if d = "eov".data ∨ d = "end_of_verse".data then
    if stack.getLast? ≠ some "verse".data then .err (unexpectedMsg lineNum "verse".data)
    else .ok stack.dropLast
  else if d = "sob".data ∨ d = "start_of_bridge".data ∨ d = "bridge".data then
    .ok (stack ++ ["bridge".data])
  else if d = "eob".data ∨ d = "end_of_bridge".data then
    if stack.getLast? ≠ some "bridge".data then .err (unexpectedMsg lineNum "bridge".data)
    else .ok stack.dropLast
  else if d = "sot".data ∨ d = "start_of_tab".data ∨ d = "tab".data then
    .ok (stack ++ ["tab".data])
  else if d = "eot".data ∨ d = "end_of_tab".data then
    if stack.getLast? ≠ some "tab".data then .err (unexpectedMsg lineNum "tab".data)
    else .ok stack.dropLast
  else .ok stack

/-- The `for directive, _ in directives` loop of one line of `validate`. -/
def procDirs (lineNum : Nat) (stack : List (List Char)) :
    List (List Char × List Char) → VRes
  | [] => .ok stack
  | (d, _) :: rest =>
    match blockStep lineNum stack d with
    | .ok st => procDirs lineNum st rest
    | .err m => .err m

/-- One iteration of the line loop of `validate`: directive handling, then
the `[` / `]` count comparison on the raw line. -/
def checkLine (n : Nat) (stack : List (List Char)) (line : List Char) : VRes :=
  match procDirs n stack (scanDirectives line) with
  | .err m => .err m
  | .ok st =>
    if List.count '[' line ≠ List.count ']' line then .err (bracketMsg n)
    else .ok st

/-- The whole `for line_num, line in enumerate(lines, 1)` loop. -/
def validateLines (n : Nat) (stack : List (List Char)) : List (List Char) → VRes
  | [] => .ok stack
  | l :: ls =>
    match checkLine n stack l with
    | .ok st => validateLines (n + 1) st ls
    | .err m => .err m

/-- The embedding of `ChordProService.validate`. -/
def validate (content : List Char) : Bool × Option (List Char) :=
  if content.isEmpty || (pyStrip content).isEmpty then
    (false, some "Content cannot be empty".data)
  else
    match validateLines 1 [] (splitOnChar '\n' content) with
    | .ok st =>
      if st.isEmpty then (true, none)
      else (false, some ("Unclosed block(s): ".data ++ List.intercalate ", ".data st))
    | .err m => (false, some m)

example : validate "{soc}\nlyric\n{eoc}".data = (true, none) := by decide
example : validate "".data = (false, some "Content cannot be empty".data) := by decide
example : validate "{soc}\n{sov}\nx".data =
    (false, some "Unclosed block(s): chorus, verse".data) := by decide

/-- Map from a block-close alias to the kind it closes (for stating C4). -/
def closeKind (d : List Char) : Option (List Char) :=
  if d = "eoc".data ∨ d = "end_of_chorus".data then some "chorus".data
  else if d = "eov".data ∨ d = "end_of_verse".data then some "verse".data
  else if d = "eob".data ∨ d = "end_of_bridge".data then some "bridge".data
  else if d = "eot".data ∨ d = "end_of_tab".data then some "tab".data
  else none

theorem blockStep_err_shape {n : Nat} {stack : List (List Char)} {d m : List Char}
    (h : blockStep n stack d = .err m) :
    ∃ K, (K = "chorus".data ∨ K = "verse".data ∨ K = "bridge".data ∨ K = "tab".data) ∧
      m = unexpectedMsg n K := by
  unfold blockStep at h
  split_ifs at h <;>
    first
      | exact VRes.noConfusion h
      | (injection h with h'
         refine ⟨_, ?_, h'.symm⟩
         decide)

theorem procDirs_err_shape : ∀ (ds : List (List Char × List Char)) (n : Nat)
    (stack : List (List Char)) (m : List Char), procDirs n stack ds = .err m →
    ∃ K, (K = "chorus".data ∨ K = "verse".data ∨ K = "bridge".data ∨ K = "tab".data) ∧
      m = unexpectedMsg n K := by
  intro ds
  induction ds with
  | nil => intro n stack m h; exact VRes.noConfusion h
  | cons p rest ih =>
    intro n stack m h
    obtain ⟨d, v⟩ := p
    simp only [procDirs] at h
    rcases hb : blockStep n stack d with st | m'
    · rw [hb] at h
      exact ih n st m h
    · rw [hb] at h
      injection h with h'
      subst h'
      exact blockStep_err_shape hb

theorem unexpectedMsg_ne_bracketMsg (n : Nat) (K : List Char) :
    unexpectedMsg n K ≠ bracketMsg n := by
  intro h
  unfold unexpectedMsg bracketMsg at h
  have h2 := List.append_cancel_left h
  have h4 : (some 'e' : Option Char) = some 'm' :=
    congrArg (fun l : List Char => l[4]?) h2
  exact absurd h4 (by decide)

/-- Claim C4: a block-close directive whose kind does not match the top of the
stack makes the directive loop fail immediately with
`"Line <n>: Unexpected end_of_<K>"`, ignoring the remaining directives; an
erroring line aborts the whole scan, so no later line is reported; and
`validate("{eoc}")` is `(false, "Line 1: Unexpected end_of_chorus")`. -/
theorem validate_unexpected_close :
    (∀ (n : Nat) (stack : List (List Char)) (d v K : List Char)
        (rest : List (List Char × List Char)),
      closeKind d = some K → stack.getLast? ≠ some K →
      procDirs n stack ((d, v) :: rest) = .err (unexpectedMsg n K))
    ∧ (∀ (n : Nat) (stack : List (List Char)) (l : List Char)
        (ls : List (List Char)) (m : List Char),
      checkLine n stack l = .err m → validateLines n stack (l :: ls) = .err m)
    ∧ validate "{eoc}".data = (false, some "Line 1: Unexpected end_of_chorus".data) := by
  refine ⟨?_, ?_, by decide⟩
  · intro n stack d v K rest hck htop
    have hstep : blockStep n stack d = .err (unexpectedMsg n K) := by
      unfold closeKind at hck
      split_ifs at hck with h1 h2 h3 h4
      · injection hck with hK
        subst hK
        rcases h1 with h | h <;> subst h <;>
          · show (if stack.getLast? ≠ some "chorus".data then
                VRes.err (unexpectedMsg n "chorus".data) else VRes.ok stack.dropLast) =
              VRes.err (unexpectedMsg n "chorus".data)
            exact if_pos htop
      · injection hck with hK
        subst hK
        rcases h2 with h | h <;> subst h <;>
          · show (if stack.getLast? ≠ some "verse".data then
                VRes.err (unexpectedMsg n "verse".data) else VRes.ok stack.dropLast) =
              VRes.err (unexpectedMsg n "verse".data)
            exact if_pos htop
      · injection hck with hK
        subst hK
        rcases h3 with h | h <;> subst h <;>
          · show (if stack.getLast? ≠ some "bridge".data then
                VRes.err (unexpectedMsg n "bridge".data) else VRes.ok stack.dropLast) =
              VRes.err (unexpectedMsg n "bridge".data)
            exact if_pos htop
      · injection hck with hK
        subst hK
        rcases h4 with h | h <;> subst h <;>
          · show (if stack.getLast? ≠ some "tab".data then
                VRes.err (unexpectedMsg n "tab".data) else VRes.ok stack.dropLast) =
              VRes.err (unexpectedMsg n "tab".data)
            exact if_pos htop
    simp only [procDirs, hstep]
  · intro n stack l ls m h
    simp only [validateLines, h]

/-- Witness for C4 at a concrete input: closing a chorus atop a verse-only
stack on line 3 fails with the chorus message regardless of later directives. -/
theorem validate_unexpected_close_witness :
    procDirs 3 ["verse".data] (("eoc".data, []) :: [("soc".data, [])]) =
      .err (unexpectedMsg 3 "chorus".data) :=
  validate_unexpected_close.1 3 ["verse".data] "eoc".data [] "chorus".data
    [("soc".data, [])] (by decide) (by decide)

/-- Claim C5: after the directive loop of a line succeeds, differing `[` and
`]` counts produce exactly `"Line <n>: Unmatched brackets in chords"`; and a
line with equal counts can never be reported with that message. -/
theorem validate_bracket_rule :
    (∀ (n : Nat) (stack : List (List Char)) (line : List Char) (st : List (List Char)),
      procDirs n stack (scanDirectives line) = .ok st →
      List.count '[' line ≠ List.count ']' line →
      checkLine n stack line = .err (bracketMsg n))
    ∧ (∀ (n : Nat) (stack : List (List Char)) (line : List Char),
      List.count '[' line = List.count ']' line →
      checkLine n stack line ≠ .err (bracketMsg n)) := by
  constructor
  · intro n stack line st hok hne
    simp only [checkLine, hok, if_pos hne]
  · intro n stack line heq h
    unfold checkLine at h
    rcases hp : procDirs n stack (scanDirectives line) with st | m
    · rw [hp] at h
      have h2 : (if List.count '[' line ≠ List.count ']' line then VRes.err (bracketMsg n)
          else VRes.ok st) = VRes.err (bracketMsg n) := h
      rw [if_neg (by simp [heq])] at h2
      exact VRes.noConfusion h2
    · rw [hp] at h
      have h2 : VRes.err m = VRes.err (bracketMsg n) := h
      injection h2 with h'
      obtain ⟨K, _, hK⟩ := procDirs_err_shape _ n stack m hp
      exact unexpectedMsg_ne_bracketMsg n K (hK ▸ h')

/-- Witness for C5 at a concrete input: `"abc["` on line 1. -/
theorem validate_bracket_rule_witness :
    checkLine 1 [] "abc[".data = .err (bracketMsg 1) :=
  validate_bracket_rule.1 1 [] "abc[".data [] (by decide) (by decide)

/-- Claim C3: when the line scan completes with stack `st`, `validate` returns
`(true, none)` exactly when `st` is empty and otherwise the comma-joined
"Unclosed block(s)" failure; together with the two examples from the spec. -/
theorem validate_unclosed_blocks (content : List Char)
    (h : (content.isEmpty || (pyStrip content).isEmpty) = false) :
    (∀ st, validateLines 1 [] (splitOnChar '\n' content) = .ok st →
      validate content =
        if st.isEmpty then (true, none)
        else (false, some ("Unclosed block(s): ".data ++ List.intercalate ", ".data st)))
    ∧ validate "{soc}\nlyric\n{eoc}".data = (true, none)
    ∧ validate "{soc}\nlyric".data = (false, some "Unclosed block(s): chorus".data) := by
  refine ⟨?_, by decide, by decide⟩
  intro st hst
  unfold validate
  rw [if_neg (by simp [h]), hst]

/-- Witness for C3 at a concrete input: `"{soc}\nlyric"` leaves `["chorus"]`
on the stack and produces the unclosed-block failure. -/
theorem validate_unclosed_blocks_witness :
    validate "{soc}\nlyric".data =
      if (["chorus".data] : List (List Char)).isEmpty then (true, none)
      else (false, some ("Unclosed block(s): ".data ++
        List.intercalate ", ".data ["chorus".data])) :=
  (validate_unclosed_blocks "{soc}\nlyric".data (by decide)).1 ["chorus".data] (by decide)

/-! ### `ChordProService.parse_line`

`CHORD_REGEX = re.compile(r'\[([^\]]+)\]')`; `parse_line` walks the chord
matches left to right, emitting the text between consecutive matches (only
when non-empty), each chord's bracket-stripped content, and the trailing
text.  The `last_end` index arithmetic of the source is rendered as an
accumulator of the characters seen since the previous match. -/

/-- A parsed segment: a `{'type': 'text'|'chord', 'content': ...}` dict. -/
inductive Seg where
  | text : List Char → Seg
  | chord : List Char → Seg
deriving DecidableEq

/-- Attempt to match `\[([^\]]+)\]` at the start of the input; on success
returns the chord content and the remainder after the closing `]`. -/
def tryChord : List Char → Option (List Char × List Char)
  | [] => none
  | c :: rest =>
    if c = '[' then
      if (rest.takeWhile (fun ch => ch != ']')).isEmpty then none
      else
        match rest.dropWhile (fun ch => ch != ']') with
        | ']' :: r => some (rest.takeWhile (fun ch => ch != ']'), r)
        | _ => none
    else none

theorem tryChord_split {l content r : List Char} (h : tryChord l = some (content, r)) :
    l = '[' :: (content ++ ']' :: r) ∧ content ≠ [] := by
  match l with
  | [] => exact Option.noConfusion h
  | c :: rest =>
    have h1 : (if c = '[' then
        if (rest.takeWhile (fun ch => ch != ']')).isEmpty then none
        else
          match rest.dropWhile (fun ch => ch != ']') with
          | ']' :: r => some (rest.takeWhile (fun ch => ch != ']'), r)
          | _ => none
      else none) = some (content, r) := h
    by_cases hc : c = '['
    · rw [if_pos hc] at h1
      by_cases he : (rest.takeWhile (fun ch => ch != ']')).isEmpty
      · rw [if_pos he] at h1
        exact Option.noConfusion h1
      · rw [if_neg he] at h1
        rcases hw : rest.dropWhile (fun ch => ch != ']') with _ | ⟨c2, r2⟩
        · rw [hw] at h1
          exact Option.noConfusion h1
        · rw [hw] at h1
          by_cases hc2 : c2 = ']'
          · subst hc2
            have h2 : some (rest.takeWhile (fun ch => ch != ']'), r2) =
                some (content, r) := h1
            injection h2 with h3
            have hcon : rest.takeWhile (fun ch => ch != ']') = content :=
              congrArg Prod.fst h3
            have hr : r2 = r := congrArg Prod.snd h3
            constructor
            · rw [hc]
              congr 1
              rw [← hcon, ← hr]
              have hsum := List.takeWhile_append_dropWhile
                (p := fun ch => ch != ']') (l := rest)
              rw [hw] at hsum
              exact hsum.symm
            · intro hnil
              rw [← hcon] at hnil
              exact he (by rw [hnil]; rfl)
          · simp [hc2] at h1
    · rw [if_neg hc] at h1
      exact Option.noConfusion h1

/-- The scanning loop of `parse_line` (fuel-based; `pending` holds the
characters seen since the previous chord match, most recent first). -/
def parseAux : Nat → List Char → List Char → List Seg
  | _, pending, [] => if pending.isEmpty then [] else [.text pending.reverse]
  | 0, _, _ :: _ => []
  | fuel + 1, pending, c :: cs =>
    match tryChord (c :: cs) with
    | some (content, rest) =>
      (if pending.isEmpty then [] else [.text pending.reverse]) ++
        Seg.chord content :: parseAux fuel [] rest
    | none => parseAux fuel (c :: pending) cs

/-- The embedding of `ChordProService.parse_line`. -/
def parse_line (line : List Char) : List Seg := parseAux line.length [] line

/-- Concatenating the segments back (chords re-wrapped in brackets). -/
def renderSegs : List Seg → List Char
  | [] => []
  | .text t :: rest => t ++ renderSegs rest
  | .chord c :: rest => '[' :: (c ++ ']' :: renderSegs rest)

theorem parseAux_render : ∀ (fuel : Nat) (pending cs : List Char),
    cs.length ≤ fuel →
    renderSegs (parseAux fuel pending cs) = pending.reverse ++ cs := by
  intro fuel
  induction fuel with
  | zero =>
    intro pending cs h
    have hnil : cs = [] := by cases cs <;> simp_all
    subst hnil
    by_cases hp : pending.isEmpty
    · have hpn : pending = [] := by cases pending <;> simp_all
      subst hpn
      simp [parseAux, renderSegs]
    · simp [parseAux, hp, renderSegs]
  | succ f ih =>
    intro pending cs h
    cases cs with
    | nil =>
      by_cases hp : pending.isEmpty
      · have hpn : pending = [] := by cases pending <;> simp_all
        subst hpn
        simp [parseAux, renderSegs]
      · simp [parseAux, hp, renderSegs]
    | cons c cs' =>
      simp only [parseAux]
      rcases ht : tryChord (c :: cs') with _ | ⟨content, rest⟩
      · have hlen : cs'.length ≤ f := by simp at h; omega
        rw [ih (c :: pending) cs' hlen]
        simp
      · obtain ⟨hsplit, hne⟩ := tryChord_split ht
        have hlen : rest.length ≤ f := by
          have hl := congrArg List.length hsplit
          simp at hl h
          omega
        by_cases hp : pending.isEmpty
        · have hpn : pending = [] := by cases pending <;> simp_all
          subst hpn
          simp only [List.isEmpty_nil, if_pos, List.nil_append, renderSegs]
          rw [ih [] rest hlen]
          simp [hsplit]
        · simp only [hp, Bool.false_eq_true, if_neg, not_false_iff, List.cons_append,
            List.nil_append, renderSegs, List.append_assoc]
          rw [ih [] rest hlen]
          simp [hsplit]

/-- Claim C9: `parse_line` loses no characters — re-concatenating its
segments (text verbatim, chords re-wrapped as `[content]`) reconstructs the
input line exactly. -/
theorem parse_line_roundtrip (line : List Char) :
    renderSegs (parse_line line) = line := by
  have h := parseAux_render line.length [] line le_rfl
  simpa [parse_line] using h

theorem parseAux_text_ne_nil : ∀ (fuel : Nat) (pending cs t : List Char),
    Seg.text t ∈ parseAux fuel pending cs → t ≠ [] := by
  intro fuel
  induction fuel with
  | zero =>
    intro pending cs t hmem
    cases cs with
    | nil =>
      by_cases hp : pending.isEmpty
      · simp [parseAux, hp] at hmem
      · simp only [parseAux, hp, Bool.false_eq_true, if_neg, not_false_iff,
          List.mem_singleton] at hmem
        injection hmem with h'
        subst h'
        simp only [ne_eq, List.reverse_eq_nil_iff]
        intro hnil
        rw [hnil] at hp
        simp at hp
    | cons c cs' => simp [parseAux] at hmem
  | succ f ih =>
    intro pending cs t hmem
    cases cs with
    | nil =>
      by_cases hp : pending.isEmpty
      · simp [parseAux, hp] at hmem
      · simp only [parseAux, hp, Bool.false_eq_true, if_neg, not_false_iff,
          List.mem_singleton] at hmem
        injection hmem with h'
        subst h'
        simp only [ne_eq, List.reverse_eq_nil_iff]
        intro hnil
        rw [hnil] at hp
        simp at hp
    | cons c cs' =>
      simp only [parseAux] at hmem
      rcases ht : tryChord (c :: cs') with _ | ⟨content, rest⟩
      · rw [ht] at hmem
        exact ih (c :: pending) cs' t hmem
      · rw [ht] at hmem
        simp only [List.mem_append, List.mem_cons] at hmem
        rcases hmem with hmem | hmem | hmem
        · by_cases hp : pending.isEmpty
          · simp [hp] at hmem
          · simp only [hp, Bool.false_eq_true, if_neg, not_false_iff,
              List.mem_singleton] at hmem
            injection hmem with h'
            subst h'
            simp only [ne_eq, List.reverse_eq_nil_iff]
            intro hnil
            rw [hnil] at hp
            simp at hp
        · exact Seg.noConfusion hmem
        · exact ih [] rest t hmem

/-- Claim C6: the segments of the spec's example line; the empty line gives
the empty sequence; and every emitted text segment is non-empty. -/
theorem parse_line_segments :
    parse_line "Amazing [G]grace, how [C]sweet".data =
      [Seg.text "Amazing ".data, Seg.chord "G".data, Seg.text "grace, how ".data,
       Seg.chord "C".data, Seg.text "sweet".data]
    ∧ parse_line [] = []
    ∧ ∀ (line t : List Char), Seg.text t ∈ parse_line line → t ≠ [] :=
  ⟨by decide, rfl, fun line t h => parseAux_text_ne_nil line.length [] line t h⟩

/-- Witness for C6 at a concrete input: the text segment of `"x[A]"`. -/
theorem parse_line_segments_witness : "x".data ≠ ([] : List Char) :=
  parse_line_segments.2.2 "x[A]".data "x".data (by decide)

/-! ### `ChordProService.clean_content`

`content.replace('\r\n', '\n').replace('\r', '\n')`, per-line `rstrip()`,
collapse of runs of blank lines to at most two, removal of trailing blank
lines, `'\n'.join`. -/

/-- Python `replace` of CRLF by LF (leftmost, non-overlapping). -/
def replaceCRLF : List Char → List Char
  | '\r' :: '\n' :: rest => '\n' :: replaceCRLF rest
  | c :: rest => c :: replaceCRLF rest
  | [] => []

/-- Python `replace` of a lone CR by LF — a single-character pattern, i.e. a map. -/
def crMap (c : Char) : Char := if c = '\r' then '\n' else c

/-- Python `replace` of every remaining CR by LF. -/
def replaceCR (l : List Char) : List Char := l.map crMap

/-- The `empty_count` loop of `clean_content`: a blank line increments the
counter and is kept only while the counter is at most 2; a non-blank line
resets it. -/
def collapseAux : Nat → List (List Char) → List (List Char)
  | _, [] => []
  | cnt, l :: rest =>
    if l.isEmpty then
      if cnt + 1 ≤ 2 then l :: collapseAux (cnt + 1) rest
      else collapseAux (cnt + 1) rest
    else l :: collapseAux 0 rest

/-- Collapse runs of more than two consecutive blank lines to exactly two. -/
def collapseEmpties (lines : List (List Char)) : List (List Char) :=
  collapseAux 0 lines

/-- The `while cleaned_lines and not cleaned_lines[-1]: pop()` loop. -/
def dropTrailingEmpties (lines : List (List Char)) : List (List Char) :=
  (lines.reverse.dropWhile List.isEmpty).reverse

/-- The line list built by `clean_content` just before the final join. -/
def cleanLines (content : List Char) : List (List Char) :=
  dropTrailingEmpties (collapseEmpties
    ((splitOnChar '\n' (replaceCR (replaceCRLF content))).map pyRstrip))

/-- The embedding of `ChordProService.clean_content`. -/
def clean_content (content : List Char) : List Char :=
  joinLines (cleanLines content)

example : clean_content "a\r\nb\r\n\r\n\r\n\r\nc\n\n".data = "a\nb\n\n\nc".data := by decide

/-- Three consecutive blank lines somewhere in the list. -/
def hasTripleBlank : List (List Char) → Bool
  | a :: b :: c :: rest =>
    (a.isEmpty && b.isEmpty && c.isEmpty) || hasTripleBlank (b :: c :: rest)
  | _ => false

/-- First element blank. -/
def headBlank : List (List Char) → Bool
  | [] => false
  | l :: _ => l.isEmpty

/-- First two elements blank. -/
def headTwoBlank : List (List Char) → Bool
  | a :: b :: _ => a.isEmpty && b.isEmpty
  | _ => false

theorem hasTripleBlank_cons (l : List Char) (M : List (List Char)) :
    hasTripleBlank (l :: M) = ((l.isEmpty && headTwoBlank M) || hasTripleBlank M) := by
  match M with
  | [] => simp [hasTripleBlank, headTwoBlank]
  | [b] => simp [hasTripleBlank, headTwoBlank]
  | b :: c :: r => simp [hasTripleBlank, headTwoBlank, Bool.and_assoc]

theorem headTwoBlank_cons (l : List Char) (M : List (List Char)) :
    headTwoBlank (l :: M) = (l.isEmpty && headBlank M) := by
  match M with
  | [] => simp [headTwoBlank, headBlank]
  | b :: r => simp [headTwoBlank, headBlank]

theorem collapseAux_inv : ∀ (L : List (List Char)) (cnt : Nat),
    hasTripleBlank (collapseAux cnt L) = false
    ∧ (1 ≤ cnt → headTwoBlank (collapseAux cnt L) = false)
    ∧ (2 ≤ cnt → headBlank (collapseAux cnt L) = false) := by
  intro L
  induction L with
  | nil => intro cnt; exact ⟨rfl, fun _ => rfl, fun _ => rfl⟩
  | cons l rest ih =>
    intro cnt
    by_cases hl : l.isEmpty
    · by_cases hcnt : cnt + 1 ≤ 2
      · obtain ⟨ih1, ih2, ih3⟩ := ih (cnt + 1)
        simp only [collapseAux, hl, if_pos, hcnt, if_true]
        refine ⟨?_, ?_, ?_⟩
        · rw [hasTripleBlank_cons, ih1, ih2 (by omega)]
          simp
        · intro h1
          rw [headTwoBlank_cons, ih3 (by omega)]
          simp
        · intro h2
          omega
      · obtain ⟨ih1, ih2, ih3⟩ := ih (cnt + 1)
        simp only [collapseAux, hl, if_pos, hcnt, if_false]
        exact ⟨ih1, fun _ => ih2 (by omega), fun _ => ih3 (by omega)⟩
    · obtain ⟨ih1, _, _⟩ := ih 0
      simp only [collapseAux, hl, Bool.false_eq_true, if_neg, not_false_iff]
      refine ⟨?_, ?_, ?_⟩
      · rw [hasTripleBlank_cons, ih1]
        simp [hl]
      · intro _
        rw [headTwoBlank_cons]
        simp [hl]
      · intro _
        simp [headBlank, hl]

theorem headTwoBlank_append {A : List (List Char)} (t : List (List Char))
    (h : headTwoBlank A = true) : headTwoBlank (A ++ t) = true := by
  match A with
  | [] => simp [headTwoBlank] at h
  | [a] => simp [headTwoBlank] at h
  | a :: b :: r => simpa [headTwoBlank] using h

theorem hasTripleBlank_append : ∀ (A t : List (List Char)),
    hasTripleBlank A = true → hasTripleBlank (A ++ t) = true := by
  intro A
  induction A with
  | nil => intro t h; simp [hasTripleBlank] at h
  | cons a A' ih =>
    intro t h
    rw [hasTripleBlank_cons] at h
    rw [List.cons_append, hasTripleBlank_cons]
    rcases Bool.or_eq_true_iff.mp h with h1 | h2
    · have hab := Bool.and_eq_true_iff.mp h1
      rw [headTwoBlank_append t hab.2]
      simp [hab.1]
    · rw [ih t h2]
      simp

theorem dropTrailingEmpties_decomp (L : List (List Char)) :
    ∃ t, L = dropTrailingEmpties L ++ t := by
  refine ⟨(L.reverse.takeWhile List.isEmpty).reverse, ?_⟩
  unfold dropTrailingEmpties
  have hsum : L.reverse.takeWhile List.isEmpty ++ L.reverse.dropWhile List.isEmpty
      = L.reverse :=
    List.takeWhile_append_dropWhile (p := List.isEmpty) (l := L.reverse)
  calc L = L.reverse.reverse := (List.reverse_reverse L).symm
    _ = (L.reverse.takeWhile List.isEmpty ++ L.reverse.dropWhile List.isEmpty).reverse := by
        rw [hsum]
    _ = (L.reverse.dropWhile List.isEmpty).reverse ++
        (L.reverse.takeWhile List.isEmpty).reverse := by
        rw [List.reverse_append]

theorem mem_dropTrailingEmpties {l : List Char} {L : List (List Char)}
    (h : l ∈ dropTrailingEmpties L) : l ∈ L := by
  obtain ⟨t, ht⟩ := dropTrailingEmpties_decomp L
  rw [ht]
  exact List.mem_append_left t h

theorem hasTripleBlank_dropTrailing {L : List (List Char)}
    (h : hasTripleBlank L = false) : hasTripleBlank (dropTrailingEmpties L) = false := by
  by_contra hc
  have hc' : hasTripleBlank (dropTrailingEmpties L) = true := by
    cases hv : hasTripleBlank (dropTrailingEmpties L)
    · exact absurd hv hc
    · rfl
  obtain ⟨t, ht⟩ := dropTrailingEmpties_decomp L
  have := hasTripleBlank_append (dropTrailingEmpties L) t hc'
  rw [← ht] at this
  rw [this] at h
  exact Bool.noConfusion h

theorem collapseAux_subset : ∀ (L : List (List Char)) (cnt : Nat) (l : List Char),
    l ∈ collapseAux cnt L → l ∈ L := by
  intro L
  induction L with
  | nil => intro cnt l h; simp [collapseAux] at h
  | cons x rest ih =>
    intro cnt l h
    by_cases hx : x.isEmpty
    · by_cases hcnt : cnt + 1 ≤ 2
      · simp only [collapseAux, hx, if_pos, hcnt, if_true, List.mem_cons] at h
        rcases h with h | h
        · exact h ▸ List.mem_cons_self x rest
        · exact List.mem_cons_of_mem x (ih (cnt + 1) l h)
      · simp only [collapseAux, hx, if_pos, hcnt, if_false] at h
        exact List.mem_cons_of_mem x (ih (cnt + 1) l h)
    · simp only [collapseAux, hx, Bool.false_eq_true, if_neg, not_false_iff,
        List.mem_cons] at h
      rcases h with h | h
      · exact h ▸ List.mem_cons_self x rest
      · exact List.mem_cons_of_mem x (ih 0 l h)

theorem splitOnChar_ne_nil (sep : Char) : ∀ w : List Char, splitOnChar sep w ≠ [] := by
  intro w
  cases w with
  | nil => simp [splitOnChar]
  | cons c cs =>
    simp only [splitOnChar]
    by_cases hc : c = sep
    · simp [hc]
    · simp only [hc, if_false]
      rcases hs : splitOnChar sep cs with _ | ⟨h, t⟩
      · simp
      · simp

theorem splitOnChar_mem (sep : Char) : ∀ (w x : List Char), x ∈ splitOnChar sep w →
    sep ∉ x ∧ ∀ a ∈ x, a ∈ w := by
  intro w
  induction w with
  | nil =>
    intro x hx
    simp [splitOnChar] at hx
    subst hx
    simp
  | cons c cs ih =>
    intro x hx
    simp only [splitOnChar] at hx
    by_cases hc : c = sep
    · rw [if_pos hc] at hx
      rcases List.mem_cons.mp hx with h | h
      · subst h; simp
      · obtain ⟨h1, h2⟩ := ih x h
        exact ⟨h1, fun a ha => List.mem_cons_of_mem c (h2 a ha)⟩
    · rw [if_neg hc] at hx
      rcases hs : splitOnChar sep cs with _ | ⟨hdd, t⟩
      · exact absurd hs (splitOnChar_ne_nil sep cs)
      · rw [hs] at hx
        rcases List.mem_cons.mp hx with h | h
        · subst h
          have hh : hdd ∈ splitOnChar sep cs := by rw [hs]; exact List.mem_cons_self hdd t
          obtain ⟨h1, h2⟩ := ih hdd hh
          constructor
          · intro hmem
            rcases List.mem_cons.mp hmem with h3 | h3
            · exact hc h3.symm
            · exact h1 h3
          · intro a ha
            rcases List.mem_cons.mp ha with h3 | h3
            · exact h3 ▸ List.mem_cons_self c cs
            · exact List.mem_cons_of_mem c (h2 a h3)
        · have hx' : x ∈ splitOnChar sep cs := by rw [hs]; exact List.mem_cons_of_mem hdd h
          obtain ⟨h1, h2⟩ := ih x hx'
          exact ⟨h1, fun a ha => List.mem_cons_of_mem c (h2 a ha)⟩

theorem dropWhile_self_idem (p : Char → Bool) (l : List Char) :
    (l.dropWhile p).dropWhile p = l.dropWhile p := by
  rcases h : l.dropWhile p with _ | ⟨a, t⟩
  · rfl
  · have hp := List.head?_dropWhile_not p l
    rw [h] at hp
    simp only [List.head?_cons] at hp
    exact List.dropWhile_cons_of_neg (by rw [hp]; simp)

theorem pyRstrip_idem (l : List Char) : pyRstrip (pyRstrip l) = pyRstrip l := by
  unfold pyRstrip
  rw [List.reverse_reverse, dropWhile_self_idem]

theorem mem_pyRstrip {a : Char} {l : List Char} (h : a ∈ pyRstrip l) : a ∈ l := by
  unfold pyRstrip at h
  rw [List.mem_reverse] at h
  have hsub : List.Sublist (l.reverse.dropWhile pyIsSpace) l.reverse :=
    List.dropWhile_sublist _
  have hmem := hsub.mem h
  rwa [List.mem_reverse] at hmem

theorem mem_replaceCR {a : Char} {l : List Char} (h : a ∈ replaceCR l) : a ≠ '\r' := by
  unfold replaceCR at h
  obtain ⟨b, _, hb⟩ := List.mem_map.mp h
  subst hb
  unfold crMap
  by_cases hbr : b = '\r'
  · simp [hbr]
  · simp [hbr]

theorem dropTrailing_getLast (L : List (List Char)) :
    (dropTrailingEmpties L).getLast? ≠ some ([] : List Char) := by
  unfold dropTrailingEmpties
  rw [List.getLast?_reverse]
  intro h
  have hp := List.head?_dropWhile_not List.isEmpty L.reverse
  rw [h] at hp
  simp at hp

/-- Claim C7: `clean_content`'s normalization guarantees — the spec's worked
example; empty input yields empty output; every output line is free of
trailing whitespace, `\r` and `\n`; no three consecutive blank lines survive;
no trailing blank line survives; and the output is exactly the `\n`-join of
the cleaned line list. -/
theorem clean_content_spec :
    clean_content "a\r\nb\r\n\r\n\r\n\r\nc\n\n".data = "a\nb\n\n\nc".data
    ∧ clean_content [] = []
    ∧ (∀ (content l : List Char), l ∈ cleanLines content →
        pyRstrip l = l ∧ '\r' ∉ l ∧ '\n' ∉ l)
    ∧ (∀ content : List Char, hasTripleBlank (cleanLines content) = false)
    ∧ (∀ content : List Char, (cleanLines content).getLast? ≠ some [])
    ∧ (∀ content : List Char, clean_content content = joinLines (cleanLines content)) := by
  refine ⟨by decide, by decide, ?_, ?_, ?_, fun _ => rfl⟩
  · intro content l hl
    have h1 : l ∈ collapseEmpties
        ((splitOnChar '\n' (replaceCR (replaceCRLF content))).map pyRstrip) :=
      mem_dropTrailingEmpties hl
    have h2 : l ∈ (splitOnChar '\n' (replaceCR (replaceCRLF content))).map pyRstrip :=
      collapseAux_subset _ 0 l h1
    obtain ⟨x, hx, hlx⟩ := List.mem_map.mp h2
    obtain ⟨hnl, hsub⟩ := splitOnChar_mem '\n' _ x hx
    refine ⟨?_, ?_, ?_⟩
    · rw [← hlx]
      exact pyRstrip_idem x
    · intro hr
      rw [← hlx] at hr
      exact mem_replaceCR (hsub '\r' (mem_pyRstrip hr)) rfl
    · intro hn
      rw [← hlx] at hn
      exact hnl (mem_pyRstrip hn)
  · intro content
    exact hasTripleBlank_dropTrailing (collapseAux_inv _ 0).1
  · intro content
    exact dropTrailing_getLast _

/-- Witness for C7 at a concrete input: the single cleaned line of `"a \n"`. -/
theorem clean_content_spec_witness :
    pyRstrip "a".data = "a".data ∧ '\r' ∉ "a".data ∧ '\n' ∉ "a".data :=
  clean_content_spec.2.2.1 "a \n".data "a".data (by decide)

/-! ### `ChordProService.extract_metadata`

A single `findall` over the whole document (the value class `[^}]*` may span
lines), folded left to right: later directives overwrite earlier ones.  All
fields start as `None`.  The `capo` value goes through
`int(value) if value else 0` under `try/except ValueError`. -/

/-- The `metadata` dict. -/
structure Metadata where
  title : Option (List Char)
  artist : Option (List Char)
  capo : Option Int
  key : Option (List Char)
  tempo : Option (List Char)
  time : Option (List Char)
deriving DecidableEq

/-- The initial all-`None` dict. -/
def emptyMetadata : Metadata := ⟨none, none, none, none, none, none⟩

/-- Python `int(value) if value else 0`, with `ValueError` handled to `0`. -/
def capoVal (v : List Char) : Int :=
  if v.isEmpty then 0
  else
    match pyParseInt v with
    | some n => n
    | none => 0

/-- One iteration of the `for directive, value in directives` loop.
The regex reports a missing value group as the empty string, so the Python
`value or ''` is just the value itself. -/
def extractStep (m : Metadata) (p : List Char × List Char) : Metadata :=
  if p.1 = "title".data ∨ p.1 = "t".data then { m with title := some p.2 }
  else if p.1 = "artist".data ∨ p.1 = "a".data then { m with artist := some p.2 }
  else if p.1 = "capo".data then { m with capo := some (capoVal p.2) }
  else if p.1 = "key".data then { m with key := some p.2 }
  else if p.1 = "tempo".data then { m with tempo := some p.2 }
  else if p.1 = "time".data then { m with time := some p.2 }
  else m

/-- The embedding of `ChordProService.extract_metadata`. -/
def extract_metadata (content : List Char) : Metadata :=
  (scanDirectives content).foldl extractStep emptyMetadata

example : (extract_metadata "{title:A}\n{title:B}".data).title = some "B".data := by decide
example : (extract_metadata "{capo:x}".data).capo = some 0 := by decide
example : (extract_metadata "{capo}".data).capo = some 0 := by decide
example : (extract_metadata "{capo:4}".data).capo = some 4 := by decide

theorem extractStep_capo_eq (m : Metadata) (p : List Char × List Char) :
    (extractStep m p).capo =
      if p.1 = "capo".data then some (capoVal p.2) else m.capo := by
  by_cases hp : p.1 = "capo".data
  · rw [if_pos hp]
    unfold extractStep
    rw [if_neg (by rw [hp]; decide), if_neg (by rw [hp]; decide), if_pos hp]
  · rw [if_neg hp]
    unfold extractStep
    by_cases h1 : p.1 = "title".data ∨ p.1 = "t".data
    · rw [if_pos h1]
    · rw [if_neg h1]
      by_cases h2 : p.1 = "artist".data ∨ p.1 = "a".data
      · rw [if_pos h2]
      · rw [if_neg h2, if_neg hp]
        by_cases h4 : p.1 = "key".data
        · rw [if_pos h4]
        · rw [if_neg h4]
          by_cases h5 : p.1 = "tempo".data
          · rw [if_pos h5]
          · rw [if_neg h5]
            by_cases h6 : p.1 = "time".data
            · rw [if_pos h6]
            · rw [if_neg h6]

theorem foldl_capo_none : ∀ (ds : List (List Char × List Char)) (m : Metadata),
    (ds.foldl extractStep m).capo = none ↔
      (m.capo = none ∧ ∀ p ∈ ds, p.1 ≠ "capo".data) := by
  intro ds
  induction ds with
  | nil => intro m; simp
  | cons p ds ih =>
    intro m
    simp only [List.foldl_cons]
    rw [ih, extractStep_capo_eq]
    by_cases hp : p.1 = "capo".data
    · rw [if_pos hp]
      constructor
      · intro hand
        exact absurd hand.1 (by simp)
      · intro hand
        exact absurd hp (hand.2 p (List.mem_cons_self p ds))
    · rw [if_neg hp]
      constructor
      · intro hand
        refine ⟨hand.1, fun q hq => ?_⟩
        rcases List.mem_cons.mp hq with h | h
        · exact h ▸ hp
        · exact hand.2 q h
      · intro hand
        exact ⟨hand.1, fun q hq => hand.2 q (List.mem_cons_of_mem p hq)⟩

theorem foldl_capo_some : ∀ (ds : List (List Char × List Char)) (m : Metadata) (k : Int),
    (ds.foldl extractStep m).capo = some k →
    (m.capo = some k ∨
      ∃ p ∈ ds, p.1 = "capo".data ∧ (k = 0 ∨ pyParseInt p.2 = some k)) := by
  intro ds
  induction ds with
  | nil => intro m k h; exact Or.inl h
  | cons p ds ih =>
    intro m k h
    simp only [List.foldl_cons] at h
    rcases ih (extractStep m p) k h with hstep | ⟨q, hq, hcapo, hval⟩
    · rw [extractStep_capo_eq] at hstep
      by_cases hp : p.1 = "capo".data
      · rw [if_pos hp] at hstep
        injection hstep with hk
        refine Or.inr ⟨p, List.mem_cons_self p ds, hp, ?_⟩
        unfold capoVal at hk
        by_cases he : p.2.isEmpty
        · rw [if_pos he] at hk
          exact Or.inl hk.symm
        · rw [if_neg he] at hk
          rcases hparse : pyParseInt p.2 with _ | n
          · rw [hparse] at hk
            exact Or.inl hk.symm
          · rw [hparse] at hk
            have hnk : n = k := hk
            exact Or.inr (by rw [hnk])
      · rw [if_neg hp] at hstep
        exact Or.inl hstep
    · exact Or.inr ⟨q, List.mem_cons_of_mem p hq, hcapo, hval⟩

/-- Claim C2 (amended): `extract_metadata` leaves `capo` unset (`None`)
exactly when the document contains no `capo` directive; whenever it is set,
its value is `0` or the successfully parsed integer value of some `capo`
directive in the document. -/
theorem extract_metadata_capo_spec (content : List Char) :
    ((extract_metadata content).capo = none ↔
      ∀ p ∈ scanDirectives content, p.1 ≠ "capo".data)
    ∧ ∀ k : Int, (extract_metadata content).capo = some k →
        k = 0 ∨ ∃ p ∈ scanDirectives content, p.1 = "capo".data ∧
          pyParseInt p.2 = some k := by
  constructor
  · rw [extract_metadata, foldl_capo_none]
    simp [emptyMetadata]
  · intro k hk
    rcases foldl_capo_some (scanDirectives content) emptyMetadata k hk with
      habs | ⟨p, hp, hcapo, hval⟩
    · exact absurd habs (by simp [emptyMetadata])
    · rcases hval with hz | hparse
      · exact Or.inl hz
      · exact Or.inr ⟨p, hp, hcapo, hparse⟩

/-- Counterexample to C2 as stated: a document with no `capo` directive gets
`capo = None` — the field is absent, not `0`. -/
theorem extract_metadata_capo_absent :
    (extract_metadata "hello".data).capo = none := by decide

/-- Witness for C2 at a concrete input: `"{capo:3}"`. -/
theorem extract_metadata_capo_spec_witness :
    (3 : Int) = 0 ∨ ∃ p ∈ scanDirectives "{capo:3}".data,
      p.1 = "capo".data ∧ pyParseInt p.2 = some 3 :=
  (extract_metadata_capo_spec "{capo:3}".data).2 3 (by decide)

/-! ### `ChordProService.inject_metadata`

Classify each line as metadata or content by the tracked directives it
contains (title/t, artist/a, capo, key), rewriting a tracked line to the
canonical `{name:value}` form when the corresponding argument is supplied;
synthesize directives for supplied-but-absent fields; output synthesized
lines, then metadata lines, then (when both a metadata block and a
non-blank content line exist) one blank separator, then the content lines. -/

/-- The four tracked fields. -/
inductive Fld where
  | title
  | artist
  | capo
  | key
deriving DecidableEq, Fintype

/-- The `metadata_found` dict. -/
structure Found where
  title : Bool
  artist : Bool
  capo : Bool
  key : Bool
deriving DecidableEq

/-- All-`False` initial `metadata_found`. -/
def found0 : Found := ⟨false, false, false, false⟩

/-- Python truthiness of an optional-string argument (`if title:`). -/
def optTruthy : Option (List Char) → Bool
  | some l => !l.isEmpty
  | none => false

/-- The canonical rewritten line: open brace, name, colon, value, close brace. -/
def canonLine (name v : List Char) : List Char :=
  '{' :: (name ++ ':' :: (v ++ ['}']))

/-- Which tracked field a directive name belongs to (the `if`/`elif` chain's
branch selector); `none` for untracked directives. -/
def fieldIdx (d : List Char) : Option Fld :=
  if d = "title".data ∨ d = "t".data then some Fld.title
  else if d = "artist".data ∨ d = "a".data then some Fld.artist
  else if d = "capo".data then some Fld.capo
  else if d = "key".data then some Fld.key
  else none

/-- One directive of the per-line loop of `inject_metadata`: possibly
rewrite `line`, record the field in `metadata_found`, set `is_metadata`.
The state is `(line, found, is_metadata)`. -/
def injStep (t a : Option (List Char)) (c : Option Int) (k : Option (List Char))
    (st : List Char × Found × Bool) (d : List Char) : List Char × Found × Bool :=
  if d = "title".data ∨ d = "t".data then
    ((if optTruthy t then canonLine "title".data (t.getD []) else st.1),
      { st.2.1 with title := true }, true)
  else if d = "artist".data ∨ d = "a".data then
    ((if optTruthy a then canonLine "artist".data (a.getD []) else st.1),
      { st.2.1 with artist := true }, true)
  else if d = "capo".data then
    ((match c with
      | some cv => canonLine "capo".data (intRepr cv)
      | none => st.1),
      { st.2.1 with capo := true }, true)
  else if d = "key".data then
    ((if optTruthy k then canonLine "key".data (k.getD []) else st.1),
      { st.2.1 with key := true }, true)
  else st

/-- Process one line: fold the directive loop over `findall(line)` starting
from `(line, found, False)`. -/
def injLine (t a : Option (List Char)) (c : Option Int) (k : Option (List Char))
    (f : Found) (line : List Char) : List Char × Found × Bool :=
  (scanDirectives line).foldl (fun st p => injStep t a c k st p.1) (line, f, false)

/-- The classification loop: returns `(metadata_lines, content_lines,
metadata_found)`. -/
def injSplit (t a : Option (List Char)) (c : Option Int) (k : Option (List Char)) :
    List (List Char) → Found → List (List Char) × List (List Char) × Found
  | [], f => ([], [], f)
  | l :: ls, f =>
    let r := injLine t a c k f l
    let rest := injSplit t a c k ls r.2.1
    if r.2.2 then (r.1 :: rest.1, rest.2.1, rest.2.2)
    else (rest.1, r.1 :: rest.2.1, rest.2.2)

/-- The `new_metadata` block: synthesized directives for supplied fields not
found in the document, in order title, artist, capo, key. -/
def newMeta (t a : Option (List Char)) (c : Option Int) (k : Option (List Char))
    (f : Found) : List (List Char) :=
  (if optTruthy t && !f.title then [canonLine "title".data (t.getD [])] else []) ++
    ((if optTruthy a && !f.artist then [canonLine "artist".data (a.getD [])] else []) ++
      ((match c with
        | some cv => if !f.capo then [canonLine "capo".data (intRepr cv)] else []
        | none => []) ++
        (if optTruthy k && !f.key then [canonLine "key".data (k.getD [])] else [])))

/-- The blank-separator condition: `result` and `content_lines` non-empty and
some content line has a non-empty `strip()` (Python's redundant
`len(content_lines) > 0` is subsumed by the non-emptiness test). -/
def sepNeeded (res contentL : List (List Char)) : Prop :=
  res ≠ [] ∧ contentL ≠ [] ∧ contentL.any (fun l => !(pyStrip l).isEmpty) = true

instance (res contentL : List (List Char)) : Decidable (sepNeeded res contentL) := by
  unfold sepNeeded
  infer_instance

/-- The classification pass of `inject_metadata` over the split document. -/
def mergeParts (content : List Char) (t a : Option (List Char)) (c : Option Int)
    (k : Option (List Char)) : List (List Char) × List (List Char) × Found :=
  injSplit t a c k (splitOnChar '\n' content) found0

/-- The `result` line list of `inject_metadata` just before the final join. -/
def inject_lines (content : List Char) (t a : Option (List Char)) (c : Option Int)
    (k : Option (List Char)) : List (List Char) :=
  let r := mergeParts content t a c k
  let res := newMeta t a c k r.2.2 ++ r.1
  (if sepNeeded res r.2.1 then res ++ [[]] else res) ++ r.2.1

/-- The embedding of `ChordProService.inject_metadata` (`if not content:
content = ""` is a no-op in this model). -/
def inject_metadata (content : List Char) (t a : Option (List Char)) (c : Option Int)
    (k : Option (List Char)) : List Char :=
  joinLines (inject_lines content t a c k)

example : inject_metadata "lyric".data (some "X".data) none none none =
    "{title:X}\n\nlyric".data := by decide
example : inject_metadata "{title:X}\n\nlyric".data (some "X".data) none none none =
    "{title:X}\n\n\nlyric".data := by decide
example : inject_metadata "{t:Old} extra\nla".data (some "New".data) none none none =
    "{title:New}\n\nla".data := by decide
example : inject_metadata "".data none none (some 2) none = "{capo:2}\n".data := by decide

/-! Helper views of the four tracked fields, used to reason uniformly about
the `if`/`elif` chain of `inject_metadata`. -/

/-- Whether the caller supplied a usable value for a field (`if title:` for
the string fields, `if capo is not None:` for `capo`). -/
def fldSupplied (t a : Option (List Char)) (c : Option Int) (k : Option (List Char)) :
    Fld → Bool
  | Fld.title => optTruthy t
  | Fld.artist => optTruthy a
  | Fld.capo => c.isSome
  | Fld.key => optTruthy k

/-- Canonical directive name of a field. -/
def fldName : Fld → List Char
  | Fld.title => "title".data
  | Fld.artist => "artist".data
  | Fld.capo => "capo".data
  | Fld.key => "key".data

/-- The value text interpolated into the rewritten/synthesized line. -/
def fldVal (t a : Option (List Char)) (c : Option Int) (k : Option (List Char)) :
    Fld → List Char
  | Fld.title => t.getD []
  | Fld.artist => a.getD []
  | Fld.capo => intRepr (c.getD 0)
  | Fld.key => k.getD []

/-- The canonical line for a field. -/
def fldCanon (t a : Option (List Char)) (c : Option Int) (k : Option (List Char))
    (i : Fld) : List Char :=
  canonLine (fldName i) (fldVal t a c k i)

/-- Set a field's `metadata_found` flag. -/
def fldSet : Fld → Found → Found
  | Fld.title, f => { f with title := true }
  | Fld.artist, f => { f with artist := true }
  | Fld.capo, f => { f with capo := true }
  | Fld.key, f => { f with key := true }

/-- Read a field's `metadata_found` flag. -/
def fldGet : Fld → Found → Bool
  | Fld.title, f => f.title
  | Fld.artist, f => f.artist
  | Fld.capo, f => f.capo
  | Fld.key, f => f.key

theorem fldSet_idem (i : Fld) (f : Found) : fldSet i (fldSet i f) = fldSet i f := by
  cases i <;> rfl

theorem fldGet_fldSet (i j : Fld) (f : Found) :
    fldGet i (fldSet j f) = (fldGet i f || decide (j = i)) := by
  cases i <;> cases j <;> simp [fldGet, fldSet]

/-- A line is classified as metadata iff it contains a tracked directive. -/
def lineIsMeta (line : List Char) : Bool :=
  (scanDirectives line).any (fun p => (fieldIdx p.1).isSome)

theorem injStep_untracked {d : List Char} (t a : Option (List Char)) (c : Option Int)
    (k : Option (List Char)) (st : List Char × Found × Bool)
    (h : fieldIdx d = none) : injStep t a c k st d = st := by
  unfold fieldIdx at h
  split_ifs at h with h1 h2 h3 h4
  unfold injStep
  rw [if_neg h1, if_neg h2, if_neg h3, if_neg h4]

theorem injStep_tracked {d : List Char} {i : Fld} (t a : Option (List Char))
    (c : Option Int) (k : Option (List Char)) (line : List Char) (f : Found) (b : Bool)
    (h : fieldIdx d = some i) :
    injStep t a c k (line, f, b) d =
      ((if fldSupplied t a c k i then fldCanon t a c k i else line), fldSet i f, true) := by
  unfold fieldIdx at h
  split_ifs at h with h1 h2 h3 h4
  · injection h with hi
    subst hi
    unfold injStep
    rw [if_pos h1]
    rfl
  · injection h with hi
    subst hi
    unfold injStep
    rw [if_neg h1, if_pos h2]
    rfl
  · injection h with hi
    subst hi
    unfold injStep
    rw [if_neg h1, if_neg h2, if_pos h3]
    cases c <;> rfl
  · injection h with hi
    subst hi
    unfold injStep
    rw [if_neg h1, if_neg h2, if_neg h3, if_pos h4]
    rfl

/-- The directive-loop fold over a list with no tracked directives leaves the
state untouched. -/
theorem injFold_none (t a : Option (List Char)) (c : Option Int) (k : Option (List Char)) :
    ∀ (ds : List (List Char × List Char)) (st : List Char × Found × Bool),
    (∀ p ∈ ds, fieldIdx p.1 = none) →
    ds.foldl (fun st p => injStep t a c k st p.1) st = st := by
  intro ds
  induction ds with
  | nil => intro st _; rfl
  | cons p ds ih =>
    intro st hall
    simp only [List.foldl_cons]
    rw [injStep_untracked t a c k st (hall p (List.mem_cons_self p ds))]
    exact ih st fun q hq => hall q (List.mem_cons_of_mem p hq)

/-- The directive-loop fold over a list whose tracked directives all belong
to the single field `i` (and which contains at least one of them). -/
theorem injFold_one (t a : Option (List Char)) (c : Option Int) (k : Option (List Char))
    (i : Fld) :
    ∀ (ds : List (List Char × List Char)) (line : List Char) (f : Found) (b : Bool),
    (∀ p ∈ ds, ∀ j, fieldIdx p.1 = some j → j = i) →
    (∃ p ∈ ds, (fieldIdx p.1).isSome) →
    ds.foldl (fun st p => injStep t a c k st p.1) (line, f, b) =
      ((if fldSupplied t a c k i then fldCanon t a c k i else line), fldSet i f, true) := by
  intro ds
  induction ds with
  | nil =>
    intro line f b _ hex
    obtain ⟨p, hp, _⟩ := hex
    exact absurd hp (List.not_mem_nil p)
  | cons p ds ih =>
    intro line f b honly hex
    simp only [List.foldl_cons]
    rcases hfi : fieldIdx p.1 with _ | j
    · rw [injStep_untracked t a c k _ hfi]
      refine ih line f b (fun q hq => honly q (List.mem_cons_of_mem p hq)) ?_
      obtain ⟨q, hq, hqs⟩ := hex
      rcases List.mem_cons.mp hq with h | h
      · rw [h, hfi] at hqs
        exact absurd hqs (by simp)
      · exact ⟨q, h, hqs⟩
    · have hji : j = i := honly p (List.mem_cons_self p ds) j hfi
      subst hji
      rw [injStep_tracked t a c k line f b hfi]
      by_cases hds : ∃ q ∈ ds, (fieldIdx q.1).isSome
      · rw [ih _ (fldSet j f) true (fun q hq => honly q (List.mem_cons_of_mem p hq)) hds]
        rw [fldSet_idem]
        by_cases hs : fldSupplied t a c k j = true
        · rw [if_pos hs, if_pos hs]
        · have hs' : fldSupplied t a c k j = false := by
            cases hv : fldSupplied t a c k j
            · rfl
            · exact absurd hv hs
          rw [hs']
          simp
      · have hnone : ∀ q ∈ ds, fieldIdx q.1 = none := by
          intro q hq
          rcases hv : fieldIdx q.1 with _ | j'
          · rfl
          · exact absurd ⟨q, hq, by rw [hv]; simp⟩ hds
        rw [injFold_none t a c k ds _ hnone]

/-- The `is_metadata` flag computed for a line equals `lineIsMeta`, whatever
the incoming `found` state and flag. -/
theorem injFold_meta (t a : Option (List Char)) (c : Option Int) (k : Option (List Char)) :
    ∀ (ds : List (List Char × List Char)) (line : List Char) (f : Found) (b : Bool),
    (ds.foldl (fun st p => injStep t a c k st p.1) (line, f, b)).2.2 =
      (b || ds.any fun p => (fieldIdx p.1).isSome) := by
  intro ds
  induction ds with
  | nil => intro line f b; simp
  | cons p ds ih =>
    intro line f b
    simp only [List.foldl_cons, List.any_cons]
    rcases hfi : fieldIdx p.1 with _ | j
    · rw [injStep_untracked t a c k _ hfi, ih]
      simp [hfi]
    · rw [injStep_tracked t a c k line f b hfi, ih]
      simp [hfi]

theorem injLine_meta (t a : Option (List Char)) (c : Option Int) (k : Option (List Char))
    (f : Found) (line : List Char) :
    (injLine t a c k f line).2.2 = lineIsMeta line := by
  unfold injLine lineIsMeta
  rw [injFold_meta]
  simp

/-- A line with no tracked directive passes through the per-line loop
completely untouched. -/
theorem injLine_notMeta (t a : Option (List Char)) (c : Option Int) (k : Option (List Char))
    (f : Found) (line : List Char) (h : lineIsMeta line = false) :
    injLine t a c k f line = (line, f, false) := by
  unfold injLine
  refine injFold_none t a c k _ _ ?_
  intro p hp
  rcases hv : fieldIdx p.1 with _ | j
  · rfl
  · exfalso
    unfold lineIsMeta at h
    rw [List.any_eq_false] at h
    have := h p hp
    rw [hv] at this
    simp at this

/-- The rewritten line and metadata flag do not depend on the incoming
`found` state (only the flag accumulation does). -/
theorem injFold_found_irrel (t a : Option (List Char)) (c : Option Int)
    (k : Option (List Char)) :
    ∀ (ds : List (List Char × List Char)) (line : List Char) (f f' : Found) (b : Bool),
    (ds.foldl (fun st p => injStep t a c k st p.1) (line, f, b)).1 =
      (ds.foldl (fun st p => injStep t a c k st p.1) (line, f', b)).1 := by
  intro ds
  induction ds with
  | nil => intro line f f' b; rfl
  | cons p ds ih =>
    intro line f f' b
    simp only [List.foldl_cons]
    rcases hfi : fieldIdx p.1 with _ | j
    · rw [injStep_untracked t a c k _ hfi, injStep_untracked t a c k _ hfi]
      exact ih line f f' b
    · rw [injStep_tracked t a c k line f b hfi, injStep_tracked t a c k line f' b hfi]
      exact ih _ (fldSet j f) (fldSet j f') true

/-- The rewritten text of a line (with the canonical initial `found`). -/
def lineOut (t a : Option (List Char)) (c : Option Int) (k : Option (List Char))
    (line : List Char) : List Char :=
  (injLine t a c k found0 line).1

theorem injLine_fst (t a : Option (List Char)) (c : Option Int) (k : Option (List Char))
    (f : Found) (line : List Char) :
    (injLine t a c k f line).1 = lineOut t a c k line := by
  unfold injLine lineOut injLine
  exact injFold_found_irrel t a c k _ line f found0 false

/-- The `metadata_found` accumulation over a list of lines. -/
def foundAcc (t a : Option (List Char)) (c : Option Int) (k : Option (List Char)) :
    List (List Char) → Found → Found
  | [], f => f
  | l :: ls, f => foundAcc t a c k ls (injLine t a c k f l).2.1

/-- Full characterization of the classification loop: metadata lines are the
rewrites of the lines containing tracked directives, content lines are the
remaining lines verbatim, and the `found` flags accumulate per line. -/
theorem injSplit_eq (t a : Option (List Char)) (c : Option Int) (k : Option (List Char)) :
    ∀ (ls : List (List Char)) (f : Found),
    injSplit t a c k ls f =
      ((ls.filter lineIsMeta).map (lineOut t a c k),
       ls.filter (fun l => !lineIsMeta l),
       foundAcc t a c k ls f) := by
  intro ls
  induction ls with
  | nil => intro f; rfl
  | cons l ls ih =>
    intro f
    simp only [injSplit]
    rw [ih]
    by_cases hm : lineIsMeta l = true
    · have h22 : (injLine t a c k f l).2.2 = true := by rw [injLine_meta]; exact hm
      rw [if_pos h22]
      simp only [List.filter_cons, hm, if_pos, Bool.not_true, Bool.false_eq_true,
        if_neg, not_false_iff, List.map_cons]
      rw [injLine_fst]
      rfl
    · have hm' : lineIsMeta l = false := by
        cases hv : lineIsMeta l
        · rfl
        · exact absurd hv hm
      have hline := injLine_notMeta t a c k f l hm'
      have h22 : (injLine t a c k f l).2.2 = false := by rw [hline]
      rw [if_neg (by rw [h22]; simp)]
      simp only [List.filter_cons, hm', Bool.false_eq_true, if_neg, not_false_iff,
        Bool.not_false, if_pos]
      have h1 : (injLine t a c k f l).1 = l := by rw [hline]
      rw [h1]
      have hfold : foundAcc t a c k (l :: ls) f =
          foundAcc t a c k ls (injLine t a c k f l).2.1 := rfl
      rw [hfold]

/-- Claim C8: every input line that contains no tracked metadata directive
(title/t, artist/a, capo, key) appears in the output line list byte-for-byte,
as a contiguous final block in its original relative order — no such line is
dropped; and the output text is exactly the `\n`-join of that line list (the
operation is a total function, so it raises on no input). -/
theorem inject_metadata_preserves_content (content : List Char)
    (t a : Option (List Char)) (c : Option Int) (k : Option (List Char)) :
    (∃ pre, inject_lines content t a c k =
      pre ++ (splitOnChar '\n' content).filter (fun l => !lineIsMeta l))
    ∧ inject_metadata content t a c k = joinLines (inject_lines content t a c k) := by
  constructor
  · simp only [inject_lines, mergeParts]
    rw [injSplit_eq]
    exact ⟨_, rfl⟩
  · rfl

/-! Lemmas for C10: empty-string arguments behave as absent ones, while
`capo = 0` counts as supplied. -/

theorem injStep_empty_args (c : Option Int) (st : List Char × Found × Bool)
    (d : List Char) :
    injStep (some []) (some []) c (some []) st d = injStep none none c none st d := rfl

theorem injLine_empty_args (c : Option Int) (f : Found) (l : List Char) :
    injLine (some []) (some []) c (some []) f l = injLine none none c none f l := rfl

theorem injSplit_empty_args (c : Option Int) :
    ∀ (ls : List (List Char)) (f : Found),
    injSplit (some []) (some []) c (some []) ls f = injSplit none none c none ls f := by
  intro ls
  induction ls with
  | nil => intro f; rfl
  | cons l ls ih =>
    intro f
    simp only [injSplit]
    rw [injLine_empty_args, ih]

theorem fldGet_injStep (t a : Option (List Char)) (c : Option Int)
    (k : Option (List Char)) (i : Fld) (line : List Char) (f : Found) (b : Bool)
    (d : List Char) :
    fldGet i ((injStep t a c k (line, f, b) d).2.1) =
      (fldGet i f || decide (fieldIdx d = some i)) := by
  rcases hfi : fieldIdx d with _ | j
  · rw [injStep_untracked t a c k _ hfi]
    simp
  · rw [injStep_tracked t a c k line f b hfi]
    simp only [fldGet_fldSet]
    simp

theorem fldGet_injFold (t a : Option (List Char)) (c : Option Int)
    (k : Option (List Char)) (i : Fld) :
    ∀ (ds : List (List Char × List Char)) (line : List Char) (f : Found) (b : Bool),
    fldGet i ((ds.foldl (fun st p => injStep t a c k st p.1) (line, f, b)).2.1) =
      (fldGet i f || ds.any fun p => decide (fieldIdx p.1 = some i)) := by
  intro ds
  induction ds with
  | nil => intro line f b; simp
  | cons p ds ih =>
    intro line f b
    simp only [List.foldl_cons, List.any_cons]
    rcases hfi : fieldIdx p.1 with _ | j
    · rw [injStep_untracked t a c k _ hfi, ih]
      simp [hfi]
    · rw [injStep_tracked t a c k line f b hfi, ih]
      rw [fldGet_fldSet]
      simp [hfi, Bool.or_assoc]

theorem fldGet_foundAcc (t a : Option (List Char)) (c : Option Int)
    (k : Option (List Char)) (i : Fld) :
    ∀ (ls : List (List Char)) (f : Found),
    fldGet i (foundAcc t a c k ls f) =
      (fldGet i f ||
        ls.any fun l => (scanDirectives l).any fun p => decide (fieldIdx p.1 = some i)) := by
  intro ls
  induction ls with
  | nil => intro f; simp [foundAcc]
  | cons l ls ih =>
    intro f
    have hfold : foundAcc t a c k (l :: ls) f =
        foundAcc t a c k ls (injLine t a c k f l).2.1 := rfl
    rw [hfold, ih]
    have hline : fldGet i ((injLine t a c k f l).2.1) =
        (fldGet i f || (scanDirectives l).any fun p => decide (fieldIdx p.1 = some i)) :=
      fldGet_injFold t a c k i _ l f false
    rw [hline]
    simp [Bool.or_assoc]

theorem fldSupplied_none_args (j : Fld) : fldSupplied none none none none j = false := by
  cases j <;> rfl

/-- With no supplied argument, the per-line loop never rewrites the line. -/
theorem injFold_no_args :
    ∀ (ds : List (List Char × List Char)) (line : List Char) (f : Found) (b : Bool),
    (ds.foldl (fun st p => injStep none none none none st p.1) (line, f, b)).1 = line := by
  intro ds
  induction ds with
  | nil => intro line f b; rfl
  | cons p ds ih =>
    intro line f b
    simp only [List.foldl_cons]
    rcases hfi : fieldIdx p.1 with _ | j
    · rw [injStep_untracked none none none none _ hfi]
      exact ih line f b
    · rw [injStep_tracked none none none none line f b hfi]
      rw [fldSupplied_none_args j]
      simp only [Bool.false_eq_true, if_neg, not_false_iff]
      exact ih line (fldSet j f) true

theorem lineOut_no_args (l : List Char) : lineOut none none none none l = l :=
  injFold_no_args _ l found0 false

theorem fieldIdx_capo {d : List Char} (h : fieldIdx d = some Fld.capo) :
    d = "capo".data := by
  unfold fieldIdx at h
  split_ifs at h with h1 h2 h3 h4
  · exact absurd h (by decide)
  · exact absurd h (by decide)
  · exact h3
  · exact absurd h (by decide)

/-- Claim C10: supplying `title`/`artist`/`key` as the empty string behaves
exactly like not supplying them (Python truthiness guards every use), for
every document and capo argument; whereas `capo = 0` counts as supplied
(`is not None`): on any document with no `capo` directive the two calls
differ (a `{capo:0}` line is synthesized), and on `"{capo:3}"` the existing
line is rewritten to `{capo:0}`. -/
theorem inject_metadata_empty_vs_capo_zero :
    (∀ (content : List Char) (c : Option Int),
      inject_metadata content (some []) (some []) c (some []) =
        inject_metadata content none none c none)
    ∧ (∀ content : List Char,
      (∀ l ∈ splitOnChar '\n' content, ∀ p ∈ scanDirectives l, p.1 ≠ "capo".data) →
      inject_lines content none none (some 0) none ≠
        inject_lines content none none none none)
    ∧ inject_metadata "{capo:3}".data none none (some 0) none ≠
        inject_metadata "{capo:3}".data none none none none := by
  refine ⟨?_, ?_, by decide⟩
  · intro content c
    simp only [inject_metadata, inject_lines, mergeParts]
    rw [injSplit_empty_args]
    rfl
  · intro content hno heq
    have hF : fldGet Fld.capo
        (foundAcc none none (some 0) none (splitOnChar '\n' content) found0) = false := by
      rw [fldGet_foundAcc]
      have hany : (splitOnChar '\n' content).any
          (fun l => (scanDirectives l).any fun p =>
            decide (fieldIdx p.1 = some Fld.capo)) = false := by
        rw [List.any_eq_false]
        intro l hl
        intro hcontra
        rw [List.any_eq_true] at hcontra
        obtain ⟨p, hp, hdec⟩ := hcontra
        rw [decide_eq_true_eq] at hdec
        exact hno l hl p hp (fieldIdx_capo hdec)
      rw [hany]
      rfl
    have hnm : newMeta none none (some 0) none
        (foundAcc none none (some 0) none (splitOnChar '\n' content) found0) =
        [canonLine "capo".data (intRepr 0)] := by
      have hcapo : (foundAcc none none (some 0) none
          (splitOnChar '\n' content) found0).capo = false := hF
      simp [newMeta, optTruthy, hcapo]
    have hmemL : canonLine "capo".data (intRepr 0) ∈
        inject_lines content none none (some 0) none := by
      simp only [inject_lines, mergeParts]
      rw [injSplit_eq, hnm]
      by_cases hs : sepNeeded
          ([canonLine "capo".data (intRepr 0)] ++
            ((splitOnChar '\n' content).filter lineIsMeta).map (lineOut none none (some 0) none))
          ((splitOnChar '\n' content).filter fun l => !lineIsMeta l)
      · rw [if_pos hs]
        simp
      · rw [if_neg hs]
        simp
    have hfromS : canonLine "capo".data (intRepr 0) ∈ splitOnChar '\n' content → False := by
      intro hS
      have hcanon_scan : ∃ p ∈ scanDirectives (canonLine "capo".data (intRepr 0)),
          p.1 = "capo".data := by decide
      obtain ⟨p, hp, hpcapo⟩ := hcanon_scan
      exact hno _ hS p hp hpcapo
    have hmemR : canonLine "capo".data (intRepr 0) ∉
        inject_lines content none none none none := by
      intro hmem
      simp only [inject_lines, mergeParts] at hmem
      rw [injSplit_eq] at hmem
      have hnm' : newMeta none none none none
          (foundAcc none none none none (splitOnChar '\n' content) found0) = [] := rfl
      rw [hnm'] at hmem
      have hmap : ((splitOnChar '\n' content).filter lineIsMeta).map
          (lineOut none none none none) = (splitOnChar '\n' content).filter lineIsMeta := by
        have hcongr := List.map_congr_left
          (l := (splitOnChar '\n' content).filter lineIsMeta)
          (f := lineOut none none none none) (g := id)
          (fun a _ => lineOut_no_args a)
        rw [hcongr, List.map_id]
      rw [hmap] at hmem
      by_cases hs : sepNeeded
          ([] ++ (splitOnChar '\n' content).filter lineIsMeta)
          ((splitOnChar '\n' content).filter fun l => !lineIsMeta l)
      · rw [if_pos hs] at hmem
        simp only [List.nil_append, List.mem_append, List.mem_singleton] at hmem
        rcases hmem with (hmem | hmem) | hmem
        · exact hfromS (List.mem_filter.mp hmem).1
        · exact absurd hmem (by decide)
        · exact hfromS (List.mem_filter.mp hmem).1
      · rw [if_neg hs] at hmem
        simp only [List.nil_append, List.mem_append] at hmem
        rcases hmem with hmem | hmem
        · exact hfromS (List.mem_filter.mp hmem).1
        · exact hfromS (List.mem_filter.mp hmem).1
    rw [heq] at hmemL
    exact hmemR hmemL

/-- Witness for C10 at a concrete input: the document `"lyric"` (no capo
directive), where `capo = 0` synthesizes a `{capo:0}` line. -/
theorem inject_metadata_empty_vs_capo_zero_witness :
    inject_lines "lyric".data none none (some 0) none ≠
      inject_lines "lyric".data none none none none :=
  inject_metadata_empty_vs_capo_zero.2.1 "lyric".data (by decide)

/-! ### Claim C1: idempotence of `inject_metadata`

The claim fails on the code: when a blank separator line is inserted between
the metadata block and the content, a second merge classifies that blank as a
content line and inserts a further separator.  The amended claim proves
idempotence when the first merge inserts no separator (with supplied values
free of `}` and newline, and no line carrying directives of two distinct
tracked fields — configurations in which a later rewrite clobbers an earlier
one and idempotence also fails). -/

/-- Counterexample to C1 as stated: merging `title="X"` twice into `"lyric"`
yields one more blank line than merging once
(`"{title:X}\n\n\nlyric"` vs `"{title:X}\n\nlyric"`). -/
theorem inject_metadata_not_idempotent :
    inject_metadata (inject_metadata "lyric".data (some "X".data) none none none)
        (some "X".data) none none none ≠
      inject_metadata "lyric".data (some "X".data) none none none := by decide

theorem takeWhile_append_stop (p : Char → Bool) :
    ∀ (xs : List Char), (∀ ch ∈ xs, p ch = true) → ∀ (y : Char) (ys : List Char),
    p y = false →
    (xs ++ y :: ys).takeWhile p = xs ∧ (xs ++ y :: ys).dropWhile p = y :: ys := by
  intro xs
  induction xs with
  | nil =>
    intro _ y ys hy
    constructor
    · simp [List.takeWhile_cons, hy]
    · simp [List.dropWhile_cons, hy]
  | cons x xs ih =>
    intro hall y ys hy
    have hx : p x = true := hall x (List.mem_cons_self x xs)
    obtain ⟨iht, ihd⟩ := ih (fun ch hch => hall ch (List.mem_cons_of_mem x hch)) y ys hy
    constructor
    · simp [List.takeWhile_cons, hx, iht]
    · simp [List.dropWhile_cons, hx, ihd]

theorem tryDir_canon (name v : List Char) (hn : name ≠ [])
    (hname : ∀ ch ∈ name, dirNameChar ch = true) (hv : '}' ∉ v) :
    tryDir (name ++ ':' :: (v ++ ['}'])) = some (name, v, []) := by
  obtain ⟨ht1, hd1⟩ :=
    takeWhile_append_stop dirNameChar name hname ':' (v ++ ['}']) (by decide)
  have hvall : ∀ ch ∈ v, (fun c => c != '}') ch = true := by
    intro ch hch
    have hne : ch ≠ '}' := fun he => hv (he ▸ hch)
    simp [hne]
  obtain ⟨ht2, hd2⟩ := takeWhile_append_stop (fun c => c != '}') v hvall '}' [] (by decide)
  simp only [tryDir, ht1, hd1, ht2, hd2]
  have hne : name.isEmpty = false := by
    cases name
    · exact absurd rfl hn
    · rfl
  rw [hne]
  rfl

theorem scanDirectives_canon (name v : List Char) (hn : name ≠ [])
    (hname : ∀ ch ∈ name, dirNameChar ch = true) (hv : '}' ∉ v) :
    scanDirectives (canonLine name v) = [(name, v)] := by
  unfold canonLine
  rw [scanDirectives_cons, if_pos rfl, tryDir_canon name v hn hname hv]
  rfl

theorem digitChar_ok (m : Nat) (hm : m < 10) :
    Char.ofNat (48 + m) ≠ '}' ∧ Char.ofNat (48 + m) ≠ '\n' := by
  interval_cases m <;> exact ⟨by decide, by decide⟩

theorem natReprAux_chars : ∀ (fuel n : Nat) (ch : Char), ch ∈ natReprAux fuel n →
    ch ≠ '}' ∧ ch ≠ '\n' := by
  intro fuel
  induction fuel with
  | zero => intro n ch h; simp [natReprAux] at h
  | succ f ih =>
    intro n ch h
    simp only [natReprAux] at h
    by_cases hn : n < 10
    · rw [if_pos hn] at h
      rw [List.mem_singleton] at h
      subst h
      exact digitChar_ok n hn
    · rw [if_neg hn] at h
      rw [List.mem_append] at h
      rcases h with h | h
      · exact ih (n / 10) ch h
      · rw [List.mem_singleton] at h
        subst h
        exact digitChar_ok (n % 10) (Nat.mod_lt n (by omega))

theorem intRepr_chars (i : Int) (ch : Char) (h : ch ∈ intRepr i) :
    ch ≠ '}' ∧ ch ≠ '\n' := by
  unfold intRepr at h
  by_cases hi : i < 0
  · rw [if_pos hi] at h
    rcases List.mem_cons.mp h with h | h
    · subst h
      exact ⟨by decide, by decide⟩
    · exact natReprAux_chars _ _ ch h
  · rw [if_neg hi] at h
    exact natReprAux_chars _ _ ch h

/-- A supplied string value is "clean": no `}` (which would end the directive
early) and no newline (which would split the canonical line). -/
def cleanOpt (o : Option (List Char)) : Prop :=
  ∀ v, o = some v → '}' ∉ v ∧ '\n' ∉ v

instance (o : Option (List Char)) : Decidable (cleanOpt o) := by
  unfold cleanOpt
  cases o with
  | none => exact isTrue (fun v h => Option.noConfusion h)
  | some w =>
    by_cases hw : '}' ∉ w ∧ '\n' ∉ w
    · exact isTrue (fun v h => by injection h with h'; exact h' ▸ hw)
    · exact isFalse (fun hcl => hw (hcl w rfl))

theorem fldVal_clean {t a : Option (List Char)} {c : Option Int} {k : Option (List Char)}
    (ht : cleanOpt t) (ha : cleanOpt a) (hk : cleanOpt k) (i : Fld) :
    '}' ∉ fldVal t a c k i ∧ '\n' ∉ fldVal t a c k i := by
  cases i
  · rcases t with _ | v
    · simp [fldVal]
    · exact ht v rfl
  · rcases a with _ | v
    · simp [fldVal]
    · exact ha v rfl
  · constructor
    · intro hmem
      exact (intRepr_chars _ _ hmem).1 rfl
    · intro hmem
      exact (intRepr_chars _ _ hmem).2 rfl
  · rcases k with _ | v
    · simp [fldVal]
    · exact hk v rfl

theorem fldName_ok (i : Fld) :
    fldName i ≠ [] ∧ ∀ ch ∈ fldName i, dirNameChar ch = true := by
  cases i <;> exact ⟨by decide, by decide⟩

theorem fieldIdx_fldName (i : Fld) : fieldIdx (fldName i) = some i := by
  cases i <;> rfl

theorem fldName_no_nl (i : Fld) : '\n' ∉ fldName i := by
  cases i <;> decide

theorem mem_canonLine {ch : Char} {name v : List Char} (h : ch ∈ canonLine name v) :
    ch = '{' ∨ ch ∈ name ∨ ch = ':' ∨ ch ∈ v ∨ ch = '}' := by
  unfold canonLine at h
  rcases List.mem_cons.mp h with h | h
  · exact Or.inl h
  · rw [List.mem_append] at h
    rcases h with h | h
    · exact Or.inr (Or.inl h)
    · rcases List.mem_cons.mp h with h | h
      · exact Or.inr (Or.inr (Or.inl h))
      · rw [List.mem_append] at h
        rcases h with h | h
        · exact Or.inr (Or.inr (Or.inr (Or.inl h)))
        · rw [List.mem_singleton] at h
          exact Or.inr (Or.inr (Or.inr (Or.inr h)))

theorem fldCanon_no_nl {t a : Option (List Char)} {c : Option Int} {k : Option (List Char)}
    (ht : cleanOpt t) (ha : cleanOpt a) (hk : cleanOpt k) (i : Fld) :
    '\n' ∉ fldCanon t a c k i := by
  intro hmem
  rcases mem_canonLine hmem with h | h | h | h | h
  · exact absurd h (by decide)
  · exact fldName_no_nl i h
  · exact absurd h (by decide)
  · exact (fldVal_clean ht ha hk i).2 h
  · exact absurd h (by decide)

/-- Processing a canonical line of a supplied field rewrites it to itself and
classifies it as metadata. -/
theorem injLine_canon (t a : Option (List Char)) (c : Option Int) (k : Option (List Char))
    (i : Fld) (hsup : fldSupplied t a c k i = true) (hv : '}' ∉ fldVal t a c k i)
    (g : Found) :
    injLine t a c k g (fldCanon t a c k i) = (fldCanon t a c k i, fldSet i g, true) := by
  unfold injLine fldCanon
  rw [scanDirectives_canon (fldName i) _ (fldName_ok i).1 (fldName_ok i).2 hv]
  simp only [List.foldl_cons, List.foldl_nil]
  rw [injStep_tracked t a c k _ g false
    ((fieldIdx_fldName i :
      fieldIdx ((fldName i, fldVal t a c k i) : List Char × List Char).1 = some i))]
  rw [if_pos hsup]
  rfl

/-- Characterization of the per-line loop on a line whose tracked directives
all target a single field `i` that is known to occur. -/
theorem injLine_one (t a : Option (List Char)) (c : Option Int) (k : Option (List Char))
    (l : List Char) (i : Fld)
    (honly : ∀ p ∈ scanDirectives l, ∀ j : Fld, fieldIdx p.1 = some j → j = i)
    (hex : ∃ p ∈ scanDirectives l, fieldIdx p.1 = some i) (f : Found) :
    injLine t a c k f l =
      ((if fldSupplied t a c k i then fldCanon t a c k i else l), fldSet i f, true) := by
  unfold injLine
  obtain ⟨p, hp, hpi⟩ := hex
  exact injFold_one t a c k i _ l f false honly ⟨p, hp, by rw [hpi]; rfl⟩

/-- The facts needed about the image of a metadata line under the first
merge: it is still metadata, it is a fixed point of the rewrite, and it still
carries a directive of every field the original line carried. -/
theorem metaLine_facts (t a : Option (List Char)) (c : Option Int) (k : Option (List Char))
    (ht : cleanOpt t) (ha : cleanOpt a) (hk : cleanOpt k) (l : List Char)
    (honeL : ∀ p ∈ scanDirectives l, ∀ q ∈ scanDirectives l, ∀ i j : Fld,
      fieldIdx p.1 = some i → fieldIdx q.1 = some j → i = j)
    (hmeta : lineIsMeta l = true) :
    lineIsMeta (lineOut t a c k l) = true
    ∧ lineOut t a c k (lineOut t a c k l) = lineOut t a c k l
    ∧ ∀ i : Fld, (∃ p ∈ scanDirectives l, fieldIdx p.1 = some i) →
        ∃ p' ∈ scanDirectives (lineOut t a c k l), fieldIdx p'.1 = some i := by
  unfold lineIsMeta at hmeta
  rw [List.any_eq_true] at hmeta
  obtain ⟨p0, hp0, hp0s⟩ := hmeta
  rcases hfi : fieldIdx p0.1 with _ | i0
  · rw [hfi] at hp0s
    simp at hp0s
  · have honly : ∀ p ∈ scanDirectives l, ∀ j : Fld, fieldIdx p.1 = some j → j = i0 :=
      fun p hp j hj => honeL p hp p0 hp0 j i0 hj hfi
    have hline := injLine_one t a c k l i0 honly ⟨p0, hp0, hfi⟩
    have hout : lineOut t a c k l =
        if fldSupplied t a c k i0 then fldCanon t a c k i0 else l := by
      unfold lineOut
      rw [hline found0]
    by_cases hsup : fldSupplied t a c k i0 = true
    · have houtc : lineOut t a c k l = fldCanon t a c k i0 := by
        rw [hout, if_pos hsup]
      have hcanon := injLine_canon t a c k i0 hsup (fldVal_clean ht ha hk i0).1
      refine ⟨?_, ?_, ?_⟩
      · rw [houtc, ← injLine_meta t a c k found0, hcanon found0]
      · rw [houtc]
        unfold lineOut
        rw [hcanon found0]
      · intro i hex
        obtain ⟨p, hp, hpi⟩ := hex
        have hii : i = i0 := honly p hp i hpi
        subst hii
        rw [houtc]
        unfold fldCanon
        rw [scanDirectives_canon (fldName i) _ (fldName_ok i).1 (fldName_ok i).2
          (fldVal_clean ht ha hk i).1]
        exact ⟨(fldName i, fldVal t a c k i), List.mem_singleton.mpr rfl, fieldIdx_fldName i⟩
    · have houtl : lineOut t a c k l = l := by
        rw [hout, if_neg hsup]
      refine ⟨?_, ?_, ?_⟩
      · rw [houtl]
        unfold lineIsMeta
        rw [List.any_eq_true]
        exact ⟨p0, hp0, by rw [hfi]; rfl⟩
      · rw [houtl, houtl]
      · intro i hex
        rw [houtl]
        exact hex

theorem canon_mem_newMeta (t a : Option (List Char)) (c : Option Int)
    (k : Option (List Char)) (f : Found) (i : Fld)
    (hsup : fldSupplied t a c k i = true) (hnf : fldGet i f = false) :
    fldCanon t a c k i ∈ newMeta t a c k f := by
  unfold newMeta
  cases i
  · have hcond : (optTruthy t && !f.title) = true := by
      have h1 : optTruthy t = true := hsup
      have h2 : f.title = false := hnf
      rw [h1, h2]
      rfl
    rw [if_pos hcond]
    exact List.mem_append_left _ (List.mem_singleton.mpr rfl)
  · have hcond : (optTruthy a && !f.artist) = true := by
      have h1 : optTruthy a = true := hsup
      have h2 : f.artist = false := hnf
      rw [h1, h2]
      rfl
    refine List.mem_append_right _ (List.mem_append_left _ ?_)
    rw [if_pos hcond]
    exact List.mem_singleton.mpr rfl
  · have h2 : f.capo = false := hnf
    rcases hc : c with _ | cv
    · rw [hc] at hsup
      exact Bool.noConfusion (show false = true from hsup)
    · refine List.mem_append_right _ (List.mem_append_right _ (List.mem_append_left _ ?_))
      have hmatch : (match some cv with
          | some cv => if !f.capo then [canonLine "capo".data (intRepr cv)] else []
          | none => ([] : List (List Char))) =
          if !f.capo then [canonLine "capo".data (intRepr cv)] else [] := rfl
      rw [hmatch, h2]
      simp only [Bool.not_false, if_pos]
      have hcan : fldCanon t a (some cv) k Fld.capo =
          canonLine "capo".data (intRepr cv) := rfl
      rw [hcan]
      exact List.mem_singleton.mpr rfl
  · have hcond : (optTruthy k && !f.key) = true := by
      have h1 : optTruthy k = true := hsup
      have h2 : f.key = false := hnf
      rw [h1, h2]
      rfl
    refine List.mem_append_right _
      (List.mem_append_right _ (List.mem_append_right _ ?_))
    rw [if_pos hcond]
    exact List.mem_singleton.mpr rfl

theorem newMeta_mem (t a : Option (List Char)) (c : Option Int) (k : Option (List Char))
    (f : Found) :
    ∀ x ∈ newMeta t a c k f,
      ∃ i, fldSupplied t a c k i = true ∧ x = fldCanon t a c k i := by
  intro x hx
  unfold newMeta at hx
  rw [List.mem_append] at hx
  rcases hx with hx | hx
  · by_cases h : (optTruthy t && !f.title) = true
    · rw [if_pos h] at hx
      rw [List.mem_singleton] at hx
      exact ⟨Fld.title, (Bool.and_eq_true_iff.mp h).1, by rw [hx]; rfl⟩
    · rw [if_neg h] at hx
      simp at hx
  · rw [List.mem_append] at hx
    rcases hx with hx | hx
    · by_cases h : (optTruthy a && !f.artist) = true
      · rw [if_pos h] at hx
        rw [List.mem_singleton] at hx
        exact ⟨Fld.artist, (Bool.and_eq_true_iff.mp h).1, by rw [hx]; rfl⟩
      · rw [if_neg h] at hx
        simp at hx
    · rw [List.mem_append] at hx
      rcases hx with hx | hx
      · rcases hc : c with _ | cv
        · rw [hc] at hx
          simp at hx
        · rw [hc] at hx
          have hx' : x ∈ (if !f.capo then [canonLine "capo".data (intRepr cv)] else []) := hx
          by_cases h : (!f.capo) = true
          · rw [if_pos h] at hx'
            rw [List.mem_singleton] at hx'
            exact ⟨Fld.capo, rfl, by rw [hx']; rfl⟩
          · rw [if_neg h] at hx'
            simp at hx'
      · by_cases h : (optTruthy k && !f.key) = true
        · rw [if_pos h] at hx
          rw [List.mem_singleton] at hx
          exact ⟨Fld.key, (Bool.and_eq_true_iff.mp h).1, by rw [hx]; rfl⟩
        · rw [if_neg h] at hx
          simp at hx

theorem newMeta_nil (t a : Option (List Char)) (c : Option Int) (k : Option (List Char))
    (f : Found) (hall : ∀ i, fldSupplied t a c k i = true → fldGet i f = true) :
    newMeta t a c k f = [] := by
  unfold newMeta
  have h0 : (if (optTruthy t && !f.title) = true then
      [canonLine "title".data (t.getD [])] else []) = [] := by
    by_cases hs : optTruthy t = true
    · rw [if_neg]
      have hf : f.title = true := hall Fld.title hs
      rw [hs, hf]
      decide
    · rw [if_neg]
      intro hand
      exact hs (Bool.and_eq_true_iff.mp hand).1
  have h1 : (if (optTruthy a && !f.artist) = true then
      [canonLine "artist".data (a.getD [])] else []) = [] := by
    by_cases hs : optTruthy a = true
    · rw [if_neg]
      have hf : f.artist = true := hall Fld.artist hs
      rw [hs, hf]
      decide
    · rw [if_neg]
      intro hand
      exact hs (Bool.and_eq_true_iff.mp hand).1
  have h2 : (match c with
      | some cv => if !f.capo then [canonLine "capo".data (intRepr cv)] else []
      | none => ([] : List (List Char))) = [] := by
    rcases hc : c with _ | cv
    · rfl
    · have hs : fldSupplied t a c k Fld.capo = true := by rw [hc]; rfl
      have hcapo : f.capo = true := hall Fld.capo hs
      rw [hcapo]
      rfl
  have h3 : (if (optTruthy k && !f.key) = true then
      [canonLine "key".data (k.getD [])] else []) = [] := by
    by_cases hs : optTruthy k = true
    · rw [if_neg]
      have hf : f.key = true := hall Fld.key hs
      rw [hs, hf]
      decide
    · rw [if_neg]
      intro hand
      exact hs (Bool.and_eq_true_iff.mp hand).1
  rw [h0, h1, h2, h3]
  rfl

theorem splitOnChar_no_sep (sep : Char) : ∀ (x : List Char), sep ∉ x →
    splitOnChar sep x = [x] := by
  intro x
  induction x with
  | nil => intro _; rfl
  | cons a x ih =>
    intro h
    have ha : ¬(a = sep) := fun he => h (he ▸ List.mem_cons_self a x)
    simp only [splitOnChar]
    rw [if_neg ha, ih (fun hm => h (List.mem_cons_of_mem a hm))]

theorem splitOnChar_append_sep (sep : Char) : ∀ (x r : List Char), sep ∉ x →
    splitOnChar sep (x ++ sep :: r) = x :: splitOnChar sep r := by
  intro x
  induction x with
  | nil =>
    intro r _
    simp [splitOnChar]
  | cons a x ih =>
    intro r h
    have ha : ¬(a = sep) := fun he => h (he ▸ List.mem_cons_self a x)
    simp only [List.cons_append, splitOnChar, List.append_eq]
    rw [if_neg ha, ih r (fun hm => h (List.mem_cons_of_mem a hm))]

theorem splitOnChar_joinLines : ∀ (L : List (List Char)), L ≠ [] →
    (∀ x ∈ L, '\n' ∉ x) → splitOnChar '\n' (joinLines L) = L := by
  intro L
  induction L with
  | nil => intro h _; exact absurd rfl h
  | cons x L ih =>
    intro _ hall
    cases L with
    | nil =>
      have hj : joinLines [x] = x := by
        show x ++ [] = x
        exact List.append_nil x
      rw [hj]
      exact splitOnChar_no_sep '\n' x (hall x (List.mem_cons_self x []))
    | cons y L' =>
      have hj : joinLines (x :: y :: L') = x ++ '\n' :: joinLines (y :: L') := rfl
      rw [hj, splitOnChar_append_sep '\n' x _ (hall x (List.mem_cons_self x _))]
      rw [ih (by simp) (fun z hz => hall z (List.mem_cons_of_mem x hz))]

/-- Re-merging a document whose line list splits into a stable metadata block
followed by content lines (and whose `found` flags rule out any synthesis and
any separator) reproduces the line list exactly. -/
theorem inject_lines_of_stable (t a : Option (List Char)) (c : Option Int)
    (k : Option (List Char)) (NMM C : List (List Char))
    (hstable : ∀ x ∈ NMM, lineIsMeta x = true ∧ lineOut t a c k x = x)
    (hCf : ∀ y ∈ C, lineIsMeta y = false)
    (hnl : ∀ x ∈ NMM ++ C, '\n' ∉ x)
    (hne : NMM ++ C ≠ [])
    (hnm2 : newMeta t a c k (foundAcc t a c k (NMM ++ C) found0) = [])
    (hsep2 : ¬ sepNeeded NMM C) :
    inject_lines (joinLines (NMM ++ C)) t a c k = NMM ++ C := by
  simp only [inject_lines, mergeParts]
  rw [splitOnChar_joinLines _ hne hnl, injSplit_eq]
  have hfm : (NMM ++ C).filter lineIsMeta = NMM := by
    rw [List.filter_append]
    have h1 : NMM.filter lineIsMeta = NMM :=
      List.filter_eq_self.mpr (fun x hx => (hstable x hx).1)
    have h2 : C.filter lineIsMeta = [] := by
      rw [List.filter_eq_nil_iff]
      intro y hy
      rw [hCf y hy]
      exact Bool.false_ne_true
    rw [h1, h2, List.append_nil]
  have hfc : (NMM ++ C).filter (fun l => !lineIsMeta l) = C := by
    rw [List.filter_append]
    have h1 : NMM.filter (fun l => !lineIsMeta l) = [] := by
      rw [List.filter_eq_nil_iff]
      intro x hx
      rw [(hstable x hx).1]
      exact Bool.false_ne_true
    have h2 : C.filter (fun l => !lineIsMeta l) = C := by
      refine List.filter_eq_self.mpr (fun y hy => ?_)
      rw [hCf y hy]
      rfl
    rw [h1, h2, List.nil_append]
  have hmap2 : NMM.map (lineOut t a c k) = NMM := by
    have hcongr := List.map_congr_left
      (l := NMM) (f := lineOut t a c k) (g := id) (fun x hx => (hstable x hx).2)
    rw [hcongr, List.map_id]
  rw [hfm, hfc, hmap2, hnm2, List.nil_append, if_neg hsep2]

/-- Claim C1 (amended): when the supplied string values contain no `}` and no
newline, every input line carries tracked directives of at most one field,
and the first merge inserts no blank separator line (e.g. the document has no
non-blank content line, or no metadata line is produced), merging the same
values twice equals merging once.  Without the separator condition the claim
is false (`inject_metadata_not_idempotent`): each merge inserts one more
blank line between the metadata block and the content. -/
theorem inject_metadata_idempotent_of_no_sep
    (D : List Char) (t a : Option (List Char)) (c : Option Int) (k : Option (List Char))
    (ht : cleanOpt t) (ha : cleanOpt a) (hk : cleanOpt k)
    (hone : ∀ l ∈ splitOnChar '\n' D, ∀ p ∈ scanDirectives l, ∀ q ∈ scanDirectives l,
      ∀ i j : Fld, fieldIdx p.1 = some i → fieldIdx q.1 = some j → i = j)
    (hsep : ¬ sepNeeded
      (newMeta t a c k (mergeParts D t a c k).2.2 ++ (mergeParts D t a c k).1)
      (mergeParts D t a c k).2.1) :
    inject_metadata (inject_metadata D t a c k) t a c k =
      inject_metadata D t a c k := by
  have hparts : mergeParts D t a c k =
      (((splitOnChar '\n' D).filter lineIsMeta).map (lineOut t a c k),
       (splitOnChar '\n' D).filter (fun l => !lineIsMeta l),
       foundAcc t a c k (splitOnChar '\n' D) found0) := by
    unfold mergeParts
    rw [injSplit_eq]
  rw [hparts] at hsep
  have hsep' : ¬ sepNeeded
      (newMeta t a c k (foundAcc t a c k (splitOnChar '\n' D) found0) ++
        ((splitOnChar '\n' D).filter lineIsMeta).map (lineOut t a c k))
      ((splitOnChar '\n' D).filter (fun l => !lineIsMeta l)) := hsep
  have hL1 : inject_lines D t a c k =
      (newMeta t a c k (foundAcc t a c k (splitOnChar '\n' D) found0) ++
        ((splitOnChar '\n' D).filter lineIsMeta).map (lineOut t a c k)) ++
      (splitOnChar '\n' D).filter (fun l => !lineIsMeta l) := by
    simp only [inject_lines]
    rw [hparts, if_neg hsep']
  have hstable : ∀ x ∈ newMeta t a c k (foundAcc t a c k (splitOnChar '\n' D) found0) ++
      ((splitOnChar '\n' D).filter lineIsMeta).map (lineOut t a c k),
      lineIsMeta x = true ∧ lineOut t a c k x = x := by
    intro x hx
    rw [List.mem_append] at hx
    rcases hx with hx | hx
    · obtain ⟨i, hsup, hxc⟩ := newMeta_mem t a c k _ x hx
      subst hxc
      have hcanon := injLine_canon t a c k i hsup (fldVal_clean ht ha hk i).1
      constructor
      · rw [← injLine_meta t a c k found0, hcanon found0]
      · unfold lineOut
        rw [hcanon found0]
    · rw [List.mem_map] at hx
      obtain ⟨l, hl, hlx⟩ := hx
      have hlS : l ∈ splitOnChar '\n' D := (List.mem_filter.mp hl).1
      have hlmeta : lineIsMeta l = true := (List.mem_filter.mp hl).2
      obtain ⟨h1, h2, _⟩ := metaLine_facts t a c k ht ha hk l (hone l hlS) hlmeta
      rw [← hlx]
      exact ⟨h1, h2⟩
  have hC : ∀ y ∈ (splitOnChar '\n' D).filter (fun l => !lineIsMeta l),
      lineIsMeta y = false := by
    intro y hy
    have hpred := (List.mem_filter.mp hy).2
    cases hv : lineIsMeta y
    · rfl
    · rw [hv] at hpred
      exact Bool.noConfusion (show false = true from hpred)
  have hfield : ∀ i : Fld, fldSupplied t a c k i = true →
      ((newMeta t a c k (foundAcc t a c k (splitOnChar '\n' D) found0) ++
        ((splitOnChar '\n' D).filter lineIsMeta).map (lineOut t a c k)) ++
        (splitOnChar '\n' D).filter (fun l => !lineIsMeta l)).any
        (fun l => (scanDirectives l).any fun p => decide (fieldIdx p.1 = some i)) = true := by
    intro i hsup
    rw [List.any_eq_true]
    by_cases hfi : fldGet i (foundAcc t a c k (splitOnChar '\n' D) found0) = true
    · rw [fldGet_foundAcc] at hfi
      have hfz : fldGet i found0 = false := by cases i <;> rfl
      rw [hfz, Bool.false_or, List.any_eq_true] at hfi
      obtain ⟨l, hl, hlin⟩ := hfi
      rw [List.any_eq_true] at hlin
      obtain ⟨p, hp, hpd⟩ := hlin
      rw [decide_eq_true_eq] at hpd
      have hlmeta : lineIsMeta l = true := by
        unfold lineIsMeta
        rw [List.any_eq_true]
        exact ⟨p, hp, by rw [hpd]; rfl⟩
      obtain ⟨_, _, h3⟩ := metaLine_facts t a c k ht ha hk l (hone l hl) hlmeta
      obtain ⟨p', hp', hp'i⟩ := h3 i ⟨p, hp, hpd⟩
      refine ⟨lineOut t a c k l, ?_, ?_⟩
      · refine List.mem_append_left _ (List.mem_append_right _ ?_)
        rw [List.mem_map]
        exact ⟨l, List.mem_filter.mpr ⟨hl, hlmeta⟩, rfl⟩
      · rw [List.any_eq_true]
        exact ⟨p', hp', by rw [hp'i]; simp⟩
    · have hff : fldGet i (foundAcc t a c k (splitOnChar '\n' D) found0) = false := by
        cases hv : fldGet i (foundAcc t a c k (splitOnChar '\n' D) found0)
        · rfl
        · exact absurd hv hfi
      have hmem := canon_mem_newMeta t a c k _ i hsup hff
      refine ⟨fldCanon t a c k i,
        List.mem_append_left _ (List.mem_append_left _ hmem), ?_⟩
      rw [List.any_eq_true]
      unfold fldCanon
      rw [scanDirectives_canon (fldName i) _ (fldName_ok i).1 (fldName_ok i).2
        (fldVal_clean ht ha hk i).1]
      exact ⟨(fldName i, fldVal t a c k i), List.mem_singleton.mpr rfl,
        by rw [fieldIdx_fldName]; simp⟩
  have hnm2 : newMeta t a c k (foundAcc t a c k
      ((newMeta t a c k (foundAcc t a c k (splitOnChar '\n' D) found0) ++
        ((splitOnChar '\n' D).filter lineIsMeta).map (lineOut t a c k)) ++
        (splitOnChar '\n' D).filter (fun l => !lineIsMeta l)) found0) = [] := by
    apply newMeta_nil
    intro i hsup
    rw [fldGet_foundAcc, hfield i hsup]
    simp
  have hnl : ∀ x ∈ (newMeta t a c k (foundAcc t a c k (splitOnChar '\n' D) found0) ++
      ((splitOnChar '\n' D).filter lineIsMeta).map (lineOut t a c k)) ++
      (splitOnChar '\n' D).filter (fun l => !lineIsMeta l), '\n' ∉ x := by
    intro x hx
    rw [List.mem_append] at hx
    rcases hx with hx | hx
    · rw [List.mem_append] at hx
      rcases hx with hx | hx
      · obtain ⟨i, hsup, hxc⟩ := newMeta_mem t a c k _ x hx
        rw [hxc]
        exact fldCanon_no_nl ht ha hk i
      · rw [List.mem_map] at hx
        obtain ⟨l, hl, hlx⟩ := hx
        have hlS : l ∈ splitOnChar '\n' D := (List.mem_filter.mp hl).1
        have hlmeta : lineIsMeta l = true := (List.mem_filter.mp hl).2
        unfold lineIsMeta at hlmeta
        rw [List.any_eq_true] at hlmeta
        obtain ⟨p0, hp0, hp0s⟩ := hlmeta
        rcases hfi : fieldIdx p0.1 with _ | i0
        · rw [hfi] at hp0s
          simp at hp0s
        · have honly : ∀ p ∈ scanDirectives l, ∀ j : Fld, fieldIdx p.1 = some j → j = i0 :=
            fun p hp j hj => hone l hlS p hp p0 hp0 j i0 hj hfi
          have hout : lineOut t a c k l =
              if fldSupplied t a c k i0 then fldCanon t a c k i0 else l := by
            unfold lineOut
            rw [injLine_one t a c k l i0 honly ⟨p0, hp0, hfi⟩ found0]
          rw [← hlx, hout]
          by_cases hsup : fldSupplied t a c k i0 = true
          · rw [if_pos hsup]
            exact fldCanon_no_nl ht ha hk i0
          · rw [if_neg hsup]
            exact (splitOnChar_mem '\n' D l hlS).1
    · have hxS : x ∈ splitOnChar '\n' D := (List.mem_filter.mp hx).1
      exact (splitOnChar_mem '\n' D x hxS).1
  have hne : (newMeta t a c k (foundAcc t a c k (splitOnChar '\n' D) found0) ++
      ((splitOnChar '\n' D).filter lineIsMeta).map (lineOut t a c k)) ++
      (splitOnChar '\n' D).filter (fun l => !lineIsMeta l) ≠ [] := by
    rcases hS : splitOnChar '\n' D with _ | ⟨s, S'⟩
    · exact absurd hS (splitOnChar_ne_nil '\n' D)
    · have hsS : s ∈ s :: S' := List.mem_cons_self s S'
      by_cases hm : lineIsMeta s = true
      · apply List.ne_nil_of_mem (a := lineOut t a c k s)
        refine List.mem_append_left _ (List.mem_append_right _ ?_)
        rw [List.mem_map]
        exact ⟨s, List.mem_filter.mpr ⟨hsS, hm⟩, rfl⟩
      · have hm' : lineIsMeta s = false := by
          cases hv : lineIsMeta s
          · rfl
          · exact absurd hv hm
        apply List.ne_nil_of_mem (a := s)
        refine List.mem_append_right _ ?_
        exact List.mem_filter.mpr ⟨hsS, by rw [hm']; rfl⟩
  have hinner := inject_lines_of_stable t a c k
    (newMeta t a c k (foundAcc t a c k (splitOnChar '\n' D) found0) ++
      ((splitOnChar '\n' D).filter lineIsMeta).map (lineOut t a c k))
    ((splitOnChar '\n' D).filter (fun l => !lineIsMeta l))
    hstable hC hnl hne hnm2 hsep'
  show joinLines (inject_lines (joinLines (inject_lines D t a c k)) t a c k) =
    joinLines (inject_lines D t a c k)
  rw [hL1, hinner]

/-- Witness for C1 at a concrete input: re-merging `title="New"` into
`"{title:Old}"` (a pure metadata document, so no separator is inserted). -/
theorem inject_metadata_idempotent_witness :
    inject_metadata (inject_metadata "{title:Old}".data (some "New".data) none none none)
        (some "New".data) none none none =
      inject_metadata "{title:Old}".data (some "New".data) none none none :=
  inject_metadata_idempotent_of_no_sep "{title:Old}".data (some "New".data) none none none
    (by decide) (by decide) (by decide) (by decide) (by decide)

end ChordPro
